import Mathlib

/-!
Verification of the serviced storage layer: the volume driver registry with
path resolution (volume package) and the NFS export synchronizer
(dfs/nfs/server.go). Go strings are modelled as Lean `String`
(operating on the underlying `List Char`); Go maps are modelled as
association lists / membership lists; external effects (filesystem,
subprocesses, file writes) are modelled as explicit oracle environments.
-/

set_option autoImplicit false

/-! ## Go path library (path/filepath on linux, slash-separated)

`goClean`, `goIsAbs`, `goDir`, `goJoin`, `goRel` and the pair-splitting
`goSplitPair` model `filepath.Clean`, `filepath.IsAbs`, `filepath.Dir`,
`filepath.Join` (two arguments), `filepath.Rel` and `path.Split` from the
Go standard library, which the volume package uses for all path handling.
-/

/-- Split a character list at every occurrence of `sep` (the separator is
dropped); mirrors Go `strings.Split` for a one-character separator. -/
def splitOnChar (sep : Char) : List Char → List (List Char)
  | [] => [[]]
  | c :: cs =>
    match splitOnChar sep cs with
    | [] => [[]]
    | s :: rest => if c = sep then [] :: s :: rest else (c :: s) :: rest

/-- Join character lists with a single `sep` between them; mirrors
Go `strings.Join` for a one-character separator. -/
def joinWithChar (sep : Char) : List (List Char) → List Char
  | [] => []
  | [s] => s
  | s :: t :: rest => s ++ sep :: joinWithChar sep (t :: rest)

/-- One step of the stack-based segment normalization performed by Go
`filepath.Clean`: empty and dot segments are dropped, a dot-dot segment
pops a real segment (and is itself kept only for non-rooted paths with
nothing left to pop), any other segment is pushed.  The accumulator holds
the output segments in reverse order. -/
def cleanStack (rooted : Bool) (acc : List (List Char)) (seg : List Char) : List (List Char) :=
  if seg = [] ∨ seg = ['.'] then acc
  else if seg = ['.', '.'] then
    match acc with
    | [] => if rooted then [] else [seg]
    | a :: rest => if ¬ rooted ∧ a = ['.', '.'] then seg :: a :: rest else rest
  else seg :: acc

/-- Normalize a list of raw segments the way Go `filepath.Clean` does. -/
def cleanSegs (rooted : Bool) (segs : List (List Char)) : List (List Char) :=
  (segs.foldl (cleanStack rooted) []).reverse

/-- Go `filepath.Clean` on linux: lexical cleaning of a slash-separated
path (empty path cleans to a dot, a rooted path keeps its leading slash,
dot and dot-dot segments are resolved lexically). -/
def goClean (p : String) : String :=
  match p.data with
  | [] => "."
  | c :: cs =>
    if c = '/' then
      String.mk ('/' :: joinWithChar '/' (cleanSegs true (splitOnChar '/' (c :: cs))))
    else
      let segs := cleanSegs false (splitOnChar '/' (c :: cs))
      if segs = [] then "." else String.mk (joinWithChar '/' segs)

/-- Go `filepath.IsAbs` on linux: the path starts with a slash. -/
def goIsAbs (p : String) : Bool :=
  match p.data with
  | '/' :: _ => true
  | _ => false

/-- The part of a path up to and including its last slash (empty when the
path has no slash); the intermediate string Go `filepath.Dir` cleans. -/
def dirPart (cs : List Char) : List Char :=
  (cs.reverse.dropWhile (fun c => ¬ (c = '/'))).reverse

/-- Go `filepath.Dir` on linux: clean of everything up to and including
the last slash. -/
def goDir (p : String) : String :=
  goClean (String.mk (dirPart p.data))

/-- Go `path.Split`: split after the final slash into (directory part
including the slash, file name part). -/
def goSplitPair (p : String) : String × String :=
  let rev := p.data.reverse
  (String.mk ((rev.dropWhile (fun c => ¬ (c = '/'))).reverse),
   String.mk ((rev.takeWhile (fun c => ¬ (c = '/'))).reverse))

/-- Go `filepath.Join` restricted to two elements: empty elements are
skipped, the rest are joined with a slash and cleaned; all-empty input
yields the empty string. -/
def goJoin (a b : String) : String :=
  if a = "" ∧ b = "" then ""
  else if a = "" then goClean b
  else if b = "" then goClean a
  else goClean (String.mk (a.data ++ '/' :: b.data))

/-- Drop the common leading segments of two segment lists, returning both
remainders; the segment-by-segment walk of Go `filepath.Rel`. -/
def dropCommon : List (List Char) → List (List Char) → List (List Char) × List (List Char)
  | x :: xs, y :: ys => if x = y then dropCommon xs ys else (x :: xs, y :: ys)
  | xs, ys => (xs, ys)

/-- Segment list of an already-cleaned path for the `goRel` walk; the
empty string has no segments. -/
def relSegs (s : List Char) : List (List Char) :=
  if s = [] then [] else splitOnChar '/' s

/-- Errors of the volume package (package-level sentinel error values in
the source) plus `relError` for errors bubbled out of `filepath.Rel` and
`fuelExhausted`, an embedding artifact marking insufficient fuel for the
parent-directory walk (never reached for adequate fuel, see `SplitPath`). -/
inductive VolErr where
  | driverNotInit
  | driverAlreadyInit
  | driverNotSupported
  | driverExists
  | invalidDriverInit
  | pathIsNotAbs
  | pathIsDriver
  | badMount
  | insufficientPermissions
  | relError
  | fuelExhausted
  | other (msg : String)
deriving DecidableEq, Repr

/-- Go `filepath.Rel` on linux: clean both paths, then compute the path
that reaches the target from the base (a trailing empty segment of the
remainder stands for an exhausted side of the byte-level walk). -/
def goRel (basepath targpath : String) : Except VolErr String :=
  let base := goClean basepath
  let targ := goClean targpath
  if targ = base then .ok "."
  else
    let base := if base = "." then "" else base
    if (goIsAbs base) ≠ (goIsAbs targ) then .error .relError
    else
      let p := dropCommon (relSegs base.data) (relSegs targ.data)
      if p.1.head? = some ['.', '.'] then .error .relError
      else
        let brem := if p.1 = [[]] then [] else p.1
        let trem := if p.2 = [[]] then [] else p.2
        if brem = [] then .ok (String.mk (joinWithChar '/' trem))
        else .ok (String.mk (joinWithChar '/' (List.replicate brem.length ['.', '.'] ++ trem)))

/-! ## Volume driver registry and path resolution (volume package) -/

/-- Backend kind; Go `type DriverType string`. -/
abbrev DriverType := String

/-- The btrfs backend kind constant. -/
def DRIVER_BTRFS : DriverType := "btrfs"

/-- The rsync backend kind constant. -/
def DRIVER_RSYNC : DriverType := "rsync"

/-- The devicemapper backend kind constant. -/
def DRIVER_DEVICEMAPPER : DriverType := "devicemapper"

/-- A volume handle: the observable data of the `Volume` interface needed
here (its name and filesystem path). -/
structure VolumeRec where
  name : String
  path : String
deriving DecidableEq, Repr

/-- A live driver instance: the observable data and behavior of the
`Driver` interface used by the registry and by `Mount`.  `existsF`,
`getF` and `createF` model the `Exists`, `Get` and `Create` methods
(their filesystem behavior is backend-specific, so they are carried as
functions of the instance). -/
structure DriverInstance where
  typ : DriverType
  rootDir : String
  existsF : String → Bool
  getF : String → Except VolErr VolumeRec
  createF : String → Except VolErr VolumeRec

/-- A registered driver constructor; Go `DriverInit`. -/
structure DriverDef where
  make : String → List String → Except VolErr DriverInstance

/-- The package-global registry state: `drivers` (kind → constructor) and
`driversByRoot` (canonical root → live driver), both Go maps modelled as
association lists. -/
structure Registry where
  drivers : List (DriverType × DriverDef)
  byRoot : List (String × DriverInstance)

/-- Go map lookup on an association list. -/
def lookupRoot {α : Type} : List (String × α) → String → Option α
  | [], _ => none
  | (k, v) :: rest, r => if k = r then some v else lookupRoot rest r

/-- Result of `InitDriver`: success with the updated registry, an error
value, or `fatal` for `glog.Fatalf` (which aborts the process; the
`return ErrDriverAlreadyInit` after it is dead code). -/
inductive InitResult where
  | ok (reg : Registry)
  | err (e : VolErr)
  | fatal

/-- True exactly on the `fatal` outcome. -/
def InitResult.isFatal : InitResult → Bool
  | .fatal => true
  | _ => false

/-- True exactly on the `ok` outcome. -/
def InitResult.isOk : InitResult → Bool
  | .ok _ => true
  | _ => false

/-- `InitDriver` (volume.go): looks up the constructor for `name`,
cleans `root`, no-ops if `root` is already bound, requires `root`
absolute, consults backend detection, and on agreement constructs and
caches the driver.  `DetectDriverType` inspects the filesystem and runs
subprocesses, so it is passed as an oracle `detect` returning the Go
pair (type, error or nil). -/
def InitDriver (detect : String → DriverType × Option VolErr) (reg : Registry)
    (name : DriverType) (root : String) (args : List String) : InitResult :=
  match lookupRoot reg.drivers name with
  | none => .err .driverNotSupported
  | some dinit =>
    let root := goClean root
    if (lookupRoot reg.byRoot root).isSome then .ok reg
    else if ¬ goIsAbs root then .err .pathIsNotAbs
    else
      let td := detect root
      if td.2 ≠ none ∧ td.2 ≠ some VolErr.driverNotInit then
        .err (td.2.getD .driverNotInit)
      else if td.1 ≠ name then .fatal
      else
        match dinit.make root args with
        | .error e => .err e
        | .ok drv => .ok { reg with byRoot := (root, drv) :: reg.byRoot }

/-- `GetDriver` (volume.go): the cached driver of the cleaned root, or
the not-initialized error. -/
def GetDriver (reg : Registry) (root : String) : Except VolErr DriverInstance :=
  match lookupRoot reg.byRoot (goClean root) with
  | none => .error .driverNotInit
  | some d => .ok d

/-- True exactly when a `GetDriver`-style result is the not-initialized
error. -/
def isNotInitErr {α : Type} : Except VolErr α → Bool
  | .error .driverNotInit => true
  | _ => false

/-- The parent-directory walk of `SplitPath`: repeatedly replace the
candidate root by its parent directory until a bound root is found
(then return it with the relative remainder) or the filesystem root is
reached (then the not-initialized error).  The Go `for` loop terminates
because `Dir` strictly shortens a cleaned absolute path, so it is run
here on fuel that the caller sizes to the path length. -/
def splitPathLoop (reg : Registry) (volumePath : String) :
    Nat → String → Except VolErr (String × String)
  | 0, _ => .error .fuelExhausted
  | fuel + 1, rootDir =>
    let rootDir := goDir rootDir
    match lookupRoot reg.byRoot rootDir with
    | none =>
      if rootDir = "/" then .error .driverNotInit
      else splitPathLoop reg volumePath fuel rootDir
    | some _ =>
      match goRel rootDir volumePath with
      | .error e => .error e
      | .ok volumeName => .ok (rootDir, volumeName)

/-- `SplitPath` (volume.go): clean and validate the path, return it with
an empty volume name if it is itself a bound root, otherwise walk parent
directories upward looking for a bound root. -/
def SplitPath (reg : Registry) (volumePath : String) : Except VolErr (String × String) :=
  let rootDir := goClean volumePath
  if ¬ goIsAbs rootDir then .error .pathIsNotAbs
  else if (lookupRoot reg.byRoot rootDir).isSome then .ok (volumePath, "")
  else splitPathLoop reg volumePath (rootDir.length + 1) rootDir

/-- `Mount` (volume.go): split the rejoined path, require the split root
to be exactly `rootDir` and the split name nonempty, then look up the
driver and `Get` the volume if it exists, else `Create` it. -/
def Mount (reg : Registry) (volumeName rootDir : String) : Except VolErr VolumeRec :=
  match SplitPath reg (goJoin rootDir volumeName) with
  | .error e => .error e
  | .ok (rDir, vName) =>
    if rDir ≠ rootDir then .error .badMount
    else if vName = "" then .error .pathIsDriver
    else
      match GetDriver reg rootDir with
      | .error e => .error e
      | .ok driver =>
        if driver.existsF volumeName then driver.getF volumeName
        else driver.createF volumeName

/-- `FindMount` (volume.go): split, fail if the path is itself a driver
root, then mount. -/
def FindMount (reg : Registry) (volumePath : String) : Except VolErr VolumeRec :=
  match SplitPath reg volumePath with
  | .error e => .error e
  | .ok (rootDir, volumeName) =>
    if rootDir = volumePath then .error .pathIsDriver
    else Mount reg volumeName rootDir

/-- A concrete volume value used by concrete registries in witnesses. -/
def testVol (n : String) : VolumeRec := { name := n, path := n }

/-- A concrete driver instance used by concrete registries in witnesses:
every volume name exists and `Get` succeeds. -/
def testDriverAll (t root : String) : DriverInstance :=
  { typ := t, rootDir := root,
    existsF := fun _ => true,
    getF := fun n => .ok (testVol n),
    createF := fun n => .ok (testVol n) }

/-- A concrete driver instance used by concrete registries in witnesses:
no volume name exists and `Create` succeeds. -/
def testDriverNone (t root : String) : DriverInstance :=
  { typ := t, rootDir := root,
    existsF := fun _ => false,
    getF := fun _ => .error .driverNotInit,
    createF := fun n => .ok (testVol n) }

/-! ## NFS export synchronizer (dfs/nfs/server.go)

The synchronizer state is `NfsState` (the `Server` struct), the managed
system files are `World`, and every external effect (directory creation,
bind mounts, daemon lifecycle commands, the mount table, unmounts,
removals, and the success of the atomic file writes) is an oracle in
`SyncEnv`.  `atomicfile.WriteFile`, the `exportsDir` constant and the
daemon `start`/`reload` helpers live outside the provided sources, so
they are modelled from the spec: an atomic write either replaces the
whole file content or fails, `exportsDir` is carried as an environment
field, and the daemon commands are success/failure oracles.
-/

/-- Sentinel marker of the hosts.deny managed block (server.go). -/
def hostDenyMarker : String := "# serviced, do not remove past this line"

/-- Full managed block appended to hosts.deny (server.go). -/
def hostDenyDefaults : String :=
  "\n# serviced, do not remove past this line\nrpcbind mountd nfsd statd lockd rquotad : ALL\n\n"

/-- Sentinel marker of the hosts.allow managed block (server.go). -/
def hostAllowMarker : String := "# serviced, do not remove past this line"

/-- Head of the managed block appended to hosts.allow (server.go). -/
def hostAllowDefaults : String :=
  "\n# serviced, do not remove past this line\nrpcbind mountd nfsd statd lockd rquotad : 127.0.0.1"

/-- Begin sentinel of the exports managed section (server.go). -/
def etcExportsStartMarker : String :=
  "\n# --- SERVICED EXPORTS BEGIN ---\n# --- Do not edit this section\n"

/-- End sentinel of the exports managed section (server.go). -/
def etcExportsEndMarker : String := "\n# --- SERVICED EXPORTS END ---\n"

/-- Comment put in front of conflicting exports lines (server.go). -/
def etcExportsRemoveComment : String := "# serviced removed: "

/-- First index at which `pat` occurs in the character list, if any;
mirrors Go `strings.Index`. -/
def indexOfSub (pat : List Char) : List Char → Option Nat
  | [] => if pat.isPrefixOf ([] : List Char) then some 0 else none
  | c :: t => if pat.isPrefixOf (c :: t) then some 0 else (indexOfSub pat t).map (· + 1)

/-- Go `strings.Contains`. -/
def containsStr (s sub : String) : Bool := (indexOfSub sub.data s.data).isSome

/-- The marker-stripping idiom of `hostsDeny`/`hostsAllow`: when the
marker occurs at a positive index, truncate the file just before it
(one character before the marker). -/
def stripAtMarkerStr (s marker : String) : String :=
  match indexOfSub marker.data s.data with
  | some i => if 0 < i then String.mk (s.data.take (i - 1)) else s
  | none => s

/-- Go `unicode.IsSpace` restricted to the characters it accepts in
Latin-1 (space, tab, newline, vertical tab, form feed, carriage return,
next line, no-break space). -/
def isGoSpace (c : Char) : Bool :=
  c = ' ' || c = '\t' || c = '\n' || c = '\r' ||
  c = Char.ofNat 11 || c = Char.ofNat 12 || c = Char.ofNat 133 || c = Char.ofNat 160

/-- Go `strings.TrimSpace` on a character list. -/
def goTrimSpace (l : List Char) : List Char :=
  ((l.dropWhile isGoSpace).reverse.dropWhile isGoSpace).reverse

/-- Split a character list at every character satisfying `p` (the
separators are dropped, runs of separators produce empty parts). -/
def splitByPred (p : Char → Bool) : List Char → List (List Char)
  | [] => [[]]
  | c :: cs =>
    match splitByPred p cs with
    | [] => [[]]
    | s :: rest => if p c then [] :: s :: rest else (c :: s) :: rest

/-- Go `strings.Fields`: maximal runs of non-space characters. -/
def goFields (l : List Char) : List (List Char) :=
  (splitByPred isGoSpace l).filter (fun s => ¬ s = [])

/-- Drop one trailing carriage return; the `dropCR` helper of
`bufio.ScanLines`. -/
def dropCR (l : List Char) : List Char :=
  if l.getLast? = some '\r' then l.dropLast else l

/-- The token sequence produced by a `bufio.Scanner` with `ScanLines`:
split at newlines, drop the trailing empty token of a newline-terminated
input, and strip one trailing carriage return per line. -/
def scanLines (s : List Char) : List (List Char) :=
  let parts := splitOnChar '\n' s
  (if parts.getLast? = some [] then parts.dropLast else parts).map dropCR

/-- The per-line transformation of the exports rewrite loop in
`writeExports`: trim the line; if it is not a comment and its first field
is one of the serviced-managed mount directories, prefix it with the
removal comment; re-emit with a newline. -/
def filterLine (mountpaths : List String) (raw : List Char) : List Char :=
  let line := goTrimSpace raw
  if List.isPrefixOf ['#'] line then line ++ ['\n']
  else
    match goFields line with
    | [] => line ++ ['\n']
    | f :: _ =>
      if String.mk f ∈ mountpaths then etcExportsRemoveComment.data ++ line ++ ['\n']
      else line ++ ['\n']

/-- The whole-file line filtering of `writeExports` (scanner loop). -/
def filterContent (mountpaths : List String) (original : String) : List Char :=
  ((scanLines original.data).map (filterLine mountpaths)).flatten

/-- The managed-section replacement of `writeExports`: find the first
begin marker (everything before it is the preamble), find the first end
marker after it (everything after that is the postamble), and emit
preamble, begin marker, generated section, end marker, postamble. -/
def spliceManaged (filtered generated : List Char) : List Char :=
  let startM := etcExportsStartMarker.data
  let endM := etcExportsEndMarker.data
  match indexOfSub startM filtered with
  | none => filtered ++ startM ++ generated ++ endM
  | some i =>
    let preamble := filtered.take i
    let remainder := filtered.drop i
    let post :=
      match indexOfSub endM remainder with
      | none => []
      | some j => remainder.drop (j + endM.length)
    preamble ++ startM ++ generated ++ endM ++ post

/-- One line of the generated exports section (`fmt.Sprintf` in
`writeExports`; note the source hardcodes the option list here instead
of using the `exportOptions` field). -/
def exportLine (exported network : String) : String :=
  exported ++ "\t" ++ network ++ "(rw,no_root_squash,insecure,no_subtree_check,async)\n"

/-- Byte-wise (here character-wise) lexicographic comparison of strings,
as used by Go `sort.Strings`. -/
def charListLe : List Char → List Char → Bool
  | [], _ => true
  | _ :: _, [] => false
  | a :: as, b :: bs => if a = b then charListLe as bs else decide (a.toNat < b.toNat)

/-- String comparison for `sortStrings`. -/
def strLe (a b : String) : Bool := charListLe a.data b.data

/-- Insertion into a sorted list of strings. -/
def insertSorted (x : String) : List String → List String
  | [] => [x]
  | y :: ys => if strLe x y then x :: y :: ys else y :: insertSorted x ys

/-- Go `sort.Strings` (ascending lexicographic), as insertion sort. -/
def sortStrings (l : List String) : List String := l.foldr insertSorted []

/-- Go `strings.Join`. -/
def joinWithStr (sep : String) : List String → String
  | [] => ""
  | [s] => s
  | s :: t :: rest => s ++ sep ++ joinWithStr sep (t :: rest)

/-- Set insertion for Go maps used as sets (`map[string]struct{}`):
membership-preserving, duplicate-free insertion. -/
def setInsert (l : List String) (x : String) : List String :=
  if x ∈ l then l else l ++ [x]

/-- The set of distinct strings of a list, as built by inserting each
into an initially empty Go map. -/
def dedupList (cs : List String) : List String := cs.foldl setInsert []

/-- The `Server` struct of server.go; the three `map[string]struct{}`
fields are modelled as duplicate-free lists. -/
structure NfsState where
  basePath : String
  exportedName : String
  exportOptions : String
  network : String
  clients : List String
  volumes : List String
  exported : List String
deriving DecidableEq, Repr

/-- The contents of the three managed system files (`none` = the file
does not exist). -/
structure World where
  denyFile : Option String
  allowFile : Option String
  exportsFile : Option String
deriving DecidableEq, Repr

/-- Oracle environment for a reconciliation cycle: the `exportsDir`
constant, success of the atomic file writes and directory creations,
bind-mount outcomes, daemon lifecycle command outcomes, and the export
directory listing / mount table / unmount / removal oracles used by
`cleanupBindMounts`. -/
structure SyncEnv where
  exportsDir : String
  writeDenyOk : Bool
  writeAllowOk : Bool
  writeExportsOk : Bool
  mkdirExportsDirOk : Bool
  mkdirEdirOk : Bool
  bindMountErr : String → String → Option String
  startOk : Bool
  reloadOk : Bool
  entries : List (String × Bool)
  isMountedChk : String → Except String Bool
  umountErr : String → Option String
  removeErr : String → Option String

/-- `Clients` (server.go): allocates a slice of the size of the client
set and copies keys into it — but the loop index is never incremented,
so every iteration writes index 0. -/
def Clients (st : NfsState) : List String :=
  st.clients.foldl (fun acc key => acc.set 0 key) (List.replicate st.clients.length "")

/-- `SetClients` (server.go): replace the client set. -/
def SetClients (st : NfsState) (clients : List String) : NfsState :=
  { st with clients := dedupList clients }

/-- `AddVolume` (server.go): insert into the desired volume set. -/
def AddVolume (st : NfsState) (volumePath : String) : NfsState :=
  { st with volumes := setInsert st.volumes volumePath }

/-- `RemoveVolume` (server.go): delete from the desired volume set. -/
def RemoveVolume (st : NfsState) (volumePath : String) : NfsState :=
  { st with volumes := st.volumes.filter (fun v => ¬ v = volumePath) }

/-- `hostsDeny` (server.go): no-op if the managed block is already
present, otherwise truncate at the marker and append the fixed block. -/
def hostsDeny (env : SyncEnv) (w : World) : World × Option String :=
  let s := w.denyFile.getD ""
  if containsStr s hostDenyDefaults then (w, none)
  else
    let s := stripAtMarkerStr s hostDenyMarker
    if env.writeDenyOk then ({ w with denyFile := some (s ++ hostDenyDefaults) }, none)
    else (w, some "write hosts.deny")

/-- `hostsAllow` (server.go): truncate at the marker, then append the
fixed daemon list granted to 127.0.0.1 followed by the sorted,
space-joined client set. -/
def hostsAllow (st : NfsState) (env : SyncEnv) (w : World) : World × Option String :=
  let s := w.allowFile.getD ""
  let s := stripAtMarkerStr s hostAllowMarker
  let hosts := sortStrings st.clients
  let content := s ++ hostAllowDefaults ++ " " ++ joinWithStr " " hosts ++ "\n\n"
  if env.writeAllowOk then ({ w with allowFile := some content }, none)
  else (w, some "write hosts.allow")

/-- The bind-mount-and-collect loop of `writeExports`: for each desired
volume path (cleaned), record its base name in the exported set, bind
mount it under the export directory, and append its exports line. -/
def exportsLoop (env : SyncEnv) (edir network : String) :
    List String → List String → String → Except String (List String × String)
  | [], exports, acc => .ok (exports, acc)
  | v :: rest, exports, acc =>
    let volume := goClean v
    let volName := (goSplitPair volume).2
    let exports := setInsert exports volName
    let exported := goJoin edir volName
    match env.bindMountErr volume exported with
    | some e => .error e
    | none => exportsLoop env edir network rest exports (acc ++ exportLine exported network)

/-- `writeExports` (server.go): substitute the all-hosts wildcard for a
`0.0.0.0/0` network, create the export directories, run the bind-mount
loop (recording the new exported set on its completion, before the file
is read or written), filter the existing file line by line, splice the
regenerated managed section, and atomically write the result.  Returns
the post-state, the post-world, and the error if any (the Go method
mutates its receiver, so the state is returned even on error). -/
def writeExports (st : NfsState) (env : SyncEnv) (w : World) :
    NfsState × World × Option String :=
  let network := if st.network = "0.0.0.0/0" then "*" else st.network
  if ¬ env.mkdirExportsDirOk then (st, w, some "mkdir exportsDir")
  else
    let edir := goJoin env.exportsDir st.exportedName
    if ¬ env.mkdirEdirOk then (st, w, some "mkdir edir")
    else
      match exportsLoop env edir network st.volumes [] "" with
      | .error e => (st, w, some e)
      | .ok (exports, servicedExports) =>
        let st := { st with exported := exports }
        let originalContents := w.exportsFile.getD ""
        let mountpaths := [env.exportsDir, edir]
        let filtered := filterContent mountpaths originalContents
        let fileContents := String.mk (spliceManaged filtered servicedExports.data)
        if env.writeExportsOk then (st, { w with exportsFile := some fileContents }, none)
        else (st, w, some "write exports")

/-- One directory entry step of `cleanupBindMounts`: entries whose name
is in the exported set (or which are not directories) are skipped; for
the rest, a bind-mounted directory is unmounted (skipping removal if the
unmount fails) and then removed.  Accumulates (removed paths, unmounted
paths). -/
def cleanupEntry (st : NfsState) (env : SyncEnv) (edir : String)
    (acc : List String × List String) (e : String × Bool) : List String × List String :=
  if e.1 ∈ st.exported then acc
  else if ¬ e.2 then acc
  else
    let dir := goJoin edir e.1
    match env.isMountedChk dir with
    | .error _ => acc
    | .ok true =>
      match env.umountErr dir with
      | some _ => acc
      | none =>
        match env.removeErr dir with
        | some _ => (acc.1, acc.2 ++ [dir])
        | none => (acc.1 ++ [dir], acc.2 ++ [dir])
    | .ok false =>
      match env.removeErr dir with
      | some _ => acc
      | none => (acc.1 ++ [dir], acc.2)

/-- `cleanupBindMounts` (server.go), instrumented to return the paths it
removed and the paths it unmounted (the Go function only logs).  All
failures are logged and skipped, never surfaced. -/
def cleanupBindMounts (st : NfsState) (env : SyncEnv) : List String × List String :=
  let edir := goJoin env.exportsDir st.exportedName
  env.entries.foldl (cleanupEntry st env edir) ([], [])

/-- `Sync` (server.go): deny list, allow list, exports table, daemon
start, daemon reload, then bind-mount cleanup (whose failures are only
logged).  A failing step aborts the cycle; earlier writes remain. -/
def Sync (st : NfsState) (env : SyncEnv) (w : World) : NfsState × World × Option String :=
  match hostsDeny env w with
  | (w1, some e) => (st, w1, some e)
  | (w1, none) =>
    match hostsAllow st env w1 with
    | (w2, some e) => (st, w2, some e)
    | (w2, none) =>
      match writeExports st env w2 with
      | (st1, w3, some e) => (st1, w3, some e)
      | (st1, w3, none) =>
        if ¬ env.startOk then (st1, w3, some "start")
        else if ¬ env.reloadOk then (st1, w3, some "reload")
        else
          let _ := cleanupBindMounts st1 env
          (st1, w3, none)

/-- Error result of a mount subprocess: its combined output message and,
when the process ran to an exit, its exit status. -/
structure MountCmdErr where
  msg : String
  exit : Option Nat
deriving DecidableEq, Repr

/-- Modelled from the spec: `utils.GetExitStatus` (outside the provided
sources) extracts the process exit status from a command error, returning
(status, true) when one is available and (0, false) otherwise; per the
spec's bind-mount retry policy it is what exposes "the process's exit
status" to the bit test. -/
def getExitStatus (e : MountCmdErr) : Nat × Bool :=
  match e.exit with
  | some n => (n, true)
  | none => (0, false)

/-- Oracle environment for one `bindMountImp` call: the mount-table
check of the destination, directory creation, and the mount subprocess
as a function of the `-o` option list. -/
structure BindEnv where
  isMounted : String → Except String Bool
  mkdirErr : String → Option String
  run : String → String → List String → String × Option MountCmdErr

/-- `bindMountImp` (server.go), instrumented with the list of option
lists passed to the mount command: succeed immediately if the
destination is already bind-mounted, create it, run the mount with the
bind option; if that fails with an exit status whose 32 bit is set,
retry exactly once with an added remount option; surface any remaining
failure as combined output and error text. -/
def bindMountImp (env : BindEnv) (src dst : String) :
    Except String Unit × List (List String) :=
  match env.isMounted dst with
  | .error e => (.error e, [])
  | .ok true => (.ok (), [])
  | .ok false =>
    match env.mkdirErr dst with
    | some e => (.error e, [])
    | none =>
      let r1 := env.run src dst ["bind"]
      match r1.2 with
      | none => (.ok (), [["bind"]])
      | some cerr =>
        let es := getExitStatus cerr
        if es.2 = true ∧ es.1 &&& 32 ≠ 0 then
          let r2 := env.run src dst ["bind", "remount"]
          match r2.2 with
          | none => (.ok (), [["bind"], ["bind", "remount"]])
          | some c2 => (.error (r2.1 ++ ": " ++ c2.msg), [["bind"], ["bind", "remount"]])
        else (.error (r1.1 ++ ": " ++ cerr.msg), [["bind"]])

/-- Base name of a volume path as computed by the exports loop: final
segment of the cleaned path. -/
def baseNameOf (v : String) : String := (goSplitPair (goClean v)).2

/-! ## Auxiliary notions used by the theorem statements -/

/-- A plain path segment: nonempty, slash-free, and not one of the two
special dot segments.  This is what "a single path segment" (a volume
name) means for the path resolver. -/
def ValidSeg (s : List Char) : Prop :=
  s ≠ [] ∧ s ≠ ['.'] ∧ s ≠ ['.', '.'] ∧ '/' ∉ s

instance (s : List Char) : Decidable (ValidSeg s) := by
  unfold ValidSeg; infer_instance

/-- All members are plain segments. -/
def ValidSegs (segs : List (List Char)) : Prop := ∀ s ∈ segs, ValidSeg s

instance (segs : List (List Char)) : Decidable (ValidSegs segs) := by
  unfold ValidSegs; infer_instance

/-- The canonical absolute path with the given segments: a leading slash
followed by the slash-joined segments.  Every cleaned absolute path has
this form. -/
def absRender (segs : List (List Char)) : String :=
  String.mk ('/' :: joinWithChar '/' segs)

/-- Invariant of the segments on the `cleanStack` stack: nonempty, not a
dot, and (for rooted paths) not a dot-dot. -/
def SegOK (rooted : Bool) (x : List Char) : Prop :=
  x ≠ [] ∧ x ≠ ['.'] ∧ (rooted = true → x ≠ ['.', '.'])

/-- Written from the spec's words for comparison with the code: one
exports-table line for a desired volume is the bind-mount target
`exportRoot/exportedName/baseName`, a tab, and the network (with
`0.0.0.0/0` rendered as the all-hosts wildcard) carrying the fixed
option list. -/
def specExportLine (exportRoot exportedName network v : String) : String :=
  goJoin (goJoin exportRoot exportedName) (baseNameOf v) ++ "\t" ++
    (if network = "0.0.0.0/0" then "*" else network) ++
    "(rw,no_root_squash,insecure,no_subtree_check,async)\n"

/-- Ascending lexicographic sortedness of a string list. -/
def SortedStrs (l : List String) : Prop :=
  List.Pairwise (fun a b => strLe a b = true) l

/-- Detection oracle reporting a fresh (not-initialized) root everywhere:
the Go pair returned by `DetectDriverType` when the root directory does
not exist or holds no volumes. -/
def detectFresh : String → DriverType × Option VolErr :=
  fun _ => (("" : String), some VolErr.driverNotInit)

/-- A registered constructor that always succeeds, producing
`testDriverNone`. -/
def rsyncDef : DriverDef :=
  { make := fun root _ => .ok (testDriverNone DRIVER_RSYNC root) }

/-- Registry with the rsync constructor registered and no bound roots. -/
def regFresh : Registry := { drivers := [(DRIVER_RSYNC, rsyncDef)], byRoot := [] }

/-- Registry with one bound root. -/
def regA : Registry :=
  { drivers := [], byRoot := [("/a", testDriverAll DRIVER_RSYNC "/a")] }

/-- Registry with two nested bound roots. -/
def regNested : Registry :=
  { drivers := [],
    byRoot := [("/a", testDriverAll DRIVER_RSYNC "/a"),
               ("/a/b", testDriverAll DRIVER_RSYNC "/a/b")] }

/-- A synchronizer state fixture (the spec's scenario). -/
def stFix : NfsState :=
  { basePath := "/data/volumes", exportedName := "shares",
    exportOptions := "rw,insecure,no_subtree_check,async",
    network := "10.0.0.0/24", clients := [],
    volumes := ["/data/volumes/tenant1"], exported := [] }

/-- An all-success oracle environment fixture. -/
def envFix : SyncEnv :=
  { exportsDir := "/exports", writeDenyOk := true, writeAllowOk := true,
    writeExportsOk := true, mkdirExportsDirOk := true, mkdirEdirOk := true,
    bindMountErr := fun _ _ => none, startOk := true, reloadOk := true,
    entries := [], isMountedChk := fun _ => .ok false,
    umountErr := fun _ => none, removeErr := fun _ => none }

/-- An empty-files world fixture. -/
def wFix : World := { denyFile := none, allowFile := none, exportsFile := none }

/-- Concatenation of a list of strings (the exports-section string grown
line by line by the loop in `writeExports`). -/
def strConcat : List String → String
  | [] => ""
  | s :: rest => s ++ strConcat rest

deriving instance DecidableEq for Except

/-- Deciding `o = none` for any option, needed to evaluate registry
lookups in concrete witnesses. -/
instance optionEqNoneDec {α : Type} (o : Option α) : Decidable (o = none) :=
  match o with
  | none => .isTrue rfl
  | some _ => .isFalse (fun h => Option.noConfusion h)

/-! # Lemmas and claim theorems -/

/-! ### String and list plumbing -/

theorem data_mk (l : List Char) : (String.mk l).data = l := rfl

theorem mk_data (s : String) : String.mk s.data = s := rfl

theorem data_append (a b : String) : (a ++ b).data = a.data ++ b.data := rfl

theorem length_eq_data (s : String) : s.length = s.data.length := rfl

theorem splitOnChar_cons (sep c : Char) (cs : List Char) :
    splitOnChar sep (c :: cs) =
      match splitOnChar sep cs with
      | [] => [[]]
      | s :: rest => if c = sep then [] :: s :: rest else (c :: s) :: rest := rfl

theorem splitOnChar_cons_eq (sep c : Char) (cs : List Char) (s : List Char)
    (rest : List (List Char)) (h : splitOnChar sep cs = s :: rest) :
    splitOnChar sep (c :: cs) =
      if c = sep then [] :: s :: rest else (c :: s) :: rest := by
  rw [splitOnChar_cons, h]

theorem splitOnChar_ne_nil (sep : Char) (l : List Char) : splitOnChar sep l ≠ [] := by
  induction l with
  | nil => simp [splitOnChar]
  | cons c cs ih =>
    rw [splitOnChar_cons]
    rcases h : splitOnChar sep cs with _ | ⟨s, rest⟩
    · exact absurd h ih
    · by_cases hc : c = sep <;> simp [hc]

theorem mem_splitOnChar_no_sep (sep : Char) (l : List Char) :
    ∀ part ∈ splitOnChar sep l, sep ∉ part := by
  induction l with
  | nil => intro part hp; simp [splitOnChar] at hp; simp [hp]
  | cons c cs ih =>
    intro part hp
    rcases h : splitOnChar sep cs with _ | ⟨s, rest⟩
    · exact absurd h (splitOnChar_ne_nil sep cs)
    · rw [splitOnChar_cons_eq sep c cs s rest h] at hp
      by_cases hc : c = sep
      · rw [if_pos hc] at hp
        simp only [List.mem_cons] at hp
        rcases hp with hp | hp | hp
        · simp [hp]
        · exact ih part (by rw [h, hp]; exact List.mem_cons_self _ _)
        · exact ih part (by rw [h]; exact List.mem_cons_of_mem _ hp)
      · rw [if_neg hc] at hp
        simp only [List.mem_cons] at hp
        rcases hp with hp | hp
        · subst hp
          intro hmem
          rcases List.mem_cons.mp hmem with heq | hmem
          · exact hc heq.symm
          · exact ih s (by rw [h]; exact List.mem_cons_self _ _) hmem
        · exact ih part (by rw [h]; exact List.mem_cons_of_mem _ hp)

theorem splitOnChar_sep_free (sep : Char) (s : List Char) (h : sep ∉ s) :
    splitOnChar sep s = [s] := by
  induction s with
  | nil => simp [splitOnChar]
  | cons c cs ih =>
    have hc : ¬ c = sep := by
      intro he; exact h (by rw [he]; exact List.mem_cons_self _ _)
    have hcs : sep ∉ cs := fun hm => h (List.mem_cons_of_mem _ hm)
    rw [splitOnChar_cons, ih hcs]
    simp [hc]

theorem splitOnChar_append_sep (sep : Char) (s l : List Char) (h : sep ∉ s) :
    splitOnChar sep (s ++ sep :: l) = s :: splitOnChar sep l := by
  induction s with
  | nil =>
    rcases hl : splitOnChar sep l with _ | ⟨t, rest⟩
    · exact absurd hl (splitOnChar_ne_nil sep l)
    · rw [List.nil_append, splitOnChar_cons, hl]
      simp
  | cons c cs ih =>
    have hc : ¬ c = sep := by
      intro he; exact h (by rw [he]; exact List.mem_cons_self _ _)
    have hcs : sep ∉ cs := fun hm => h (List.mem_cons_of_mem _ hm)
    rw [List.cons_append, splitOnChar_cons, ih hcs]
    simp [hc]

theorem splitOnChar_joinWithChar (sep : Char) (segs : List (List Char))
    (hne : segs ≠ []) (hfree : ∀ s ∈ segs, sep ∉ s) :
    splitOnChar sep (joinWithChar sep segs) = segs := by
  induction segs with
  | nil => exact absurd rfl hne
  | cons s rest ih =>
    rcases rest with _ | ⟨t, rest'⟩
    · exact splitOnChar_sep_free sep s (hfree s (List.mem_cons_self _ _))
    · have hs : sep ∉ s := hfree s (List.mem_cons_self _ _)
      have hrest : ∀ x ∈ t :: rest', sep ∉ x := fun x hx => hfree x (List.mem_cons_of_mem _ hx)
      show splitOnChar sep (s ++ sep :: joinWithChar sep (t :: rest')) = _
      rw [splitOnChar_append_sep sep s _ hs, ih (by simp) hrest]

theorem joinWithChar_splitOnChar (sep : Char) (l : List Char) :
    joinWithChar sep (splitOnChar sep l) = l := by
  induction l with
  | nil => simp [splitOnChar, joinWithChar]
  | cons c cs ih =>
    rw [splitOnChar_cons]
    rcases h : splitOnChar sep cs with _ | ⟨s, rest⟩
    · exact absurd h (splitOnChar_ne_nil sep cs)
    · rw [h] at ih
      by_cases hc : c = sep
      · subst hc
        simp only [if_pos rfl, joinWithChar]
        rw [List.nil_append]
        exact congrArg (c :: ·) ih
      · simp only [if_neg hc]
        rcases rest with _ | ⟨t, rest'⟩
        · simp only [joinWithChar] at ih ⊢
          rw [ih]
        · simp only [joinWithChar] at ih ⊢
          rw [List.cons_append, ih]

theorem joinWithChar_append_single (sep : Char) (l : List (List Char)) (v : List Char)
    (hne : l ≠ []) :
    joinWithChar sep (l ++ [v]) = joinWithChar sep l ++ sep :: v := by
  induction l with
  | nil => exact absurd rfl hne
  | cons s rest ih =>
    rcases rest with _ | ⟨t, rest'⟩
    · simp [joinWithChar]
    · have h2 := ih (by simp)
      have e1 : (s :: t :: rest') ++ [v] = s :: t :: (rest' ++ [v]) := by simp
      rw [e1]
      show s ++ sep :: joinWithChar sep (t :: (rest' ++ [v])) = _
      have e3 : t :: (rest' ++ [v]) = (t :: rest') ++ [v] := by simp
      rw [e3, h2]
      show _ = (s ++ sep :: joinWithChar sep (t :: rest')) ++ sep :: v
      simp [List.append_assoc]

theorem mem_of_mem_splitOnChar (sep : Char) (l : List Char) :
    ∀ part ∈ splitOnChar sep l, ∀ c ∈ part, c ∈ l := by
  induction l with
  | nil => intro part hp; simp [splitOnChar] at hp; simp [hp]
  | cons x cs ih =>
    intro part hp c hc
    rcases h : splitOnChar sep cs with _ | ⟨s, rest⟩
    · exact absurd h (splitOnChar_ne_nil sep cs)
    · rw [splitOnChar_cons_eq sep x cs s rest h] at hp
      by_cases hx : x = sep
      · rw [if_pos hx] at hp
        simp only [List.mem_cons] at hp
        rcases hp with hp | hp
        · rw [hp] at hc; simp at hc
        · exact List.mem_cons_of_mem _ (ih part (by rw [h]; exact List.mem_cons.mpr hp) c hc)
      · rw [if_neg hx] at hp
        simp only [List.mem_cons] at hp
        rcases hp with hp | hp
        · subst hp
          rcases List.mem_cons.mp hc with heq | hc2
          · rw [heq]; exact List.mem_cons_self _ _
          · exact List.mem_cons_of_mem _
              (ih s (by rw [h]; exact List.mem_cons_self _ _) c hc2)
        · exact List.mem_cons_of_mem _
            (ih part (by rw [h]; exact List.mem_cons_of_mem _ hp) c hc)

/-! ### Clean-stack normalization -/

theorem cleanStack_empty (r : Bool) (acc : List (List Char)) :
    cleanStack r acc [] = acc := by simp [cleanStack]

theorem cleanStack_push (r : Bool) (acc : List (List Char)) (s : List Char)
    (h1 : s ≠ []) (h2 : s ≠ ['.']) (h3 : s ≠ ['.', '.']) :
    cleanStack r acc s = s :: acc := by
  unfold cleanStack
  rw [if_neg (by simp [h1, h2]), if_neg h3]

theorem foldl_cleanStack_valid (r : Bool) (segs : List (List Char)) (h : ValidSegs segs) :
    ∀ acc, segs.foldl (cleanStack r) acc = segs.reverse ++ acc := by
  induction segs with
  | nil => intro acc; simp
  | cons s rest ih =>
    intro acc
    obtain ⟨h1, h2, h3, _⟩ := h s (List.mem_cons_self _ _)
    have hrest : ValidSegs rest := fun x hx => h x (List.mem_cons_of_mem _ hx)
    rw [List.foldl_cons, cleanStack_push r acc s h1 h2 h3, ih hrest]
    simp

theorem cleanSegs_valid (r : Bool) (segs : List (List Char)) (h : ValidSegs segs) :
    cleanSegs r segs = segs := by
  unfold cleanSegs
  rw [foldl_cleanStack_valid r segs h []]
  simp

theorem cleanSegs_nil_cons (r : Bool) (segs : List (List Char)) :
    cleanSegs r ([] :: segs) = cleanSegs r segs := by
  unfold cleanSegs
  rw [List.foldl_cons, cleanStack_empty]

theorem cleanSegs_append_empty (r : Bool) (segs : List (List Char)) :
    cleanSegs r (segs ++ [[]]) = cleanSegs r segs := by
  unfold cleanSegs
  rw [List.foldl_append]
  simp [cleanStack_empty]

theorem mem_cleanStack (r : Bool) (acc : List (List Char)) (seg : List Char) :
    ∀ x ∈ cleanStack r acc seg, x ∈ acc ∨ x = seg := by
  intro x hx
  unfold cleanStack at hx
  split at hx
  · exact Or.inl hx
  · split at hx
    · split at hx
      · split at hx
        · simp at hx
        · simp at hx; exact Or.inr hx
      · split at hx
        · simp only [List.mem_cons] at hx
          rcases hx with hx | hx
          · exact Or.inr hx
          · exact Or.inl (List.mem_cons.mpr hx)
        · rename_i a rest _
          exact Or.inl (List.mem_cons_of_mem a hx)
    · simp only [List.mem_cons] at hx
      rcases hx with hx | hx
      · exact Or.inr hx
      · exact Or.inl hx

theorem segOK_cleanStack (r : Bool) (acc : List (List Char)) (seg : List Char)
    (hacc : ∀ x ∈ acc, SegOK r x) :
    ∀ x ∈ cleanStack r acc seg, SegOK r x := by
  intro x hx
  unfold cleanStack at hx
  split at hx
  · exact hacc x hx
  · split at hx
    · rename_i hno hdd
      split at hx
      · split at hx
        · simp at hx
        · rename_i hr
          simp at hx
          subst hx
          rw [hdd]
          exact ⟨by simp, by simp, fun ht => absurd ht hr⟩
      · rename_i a rest
        split at hx
        · rename_i hcond
          simp only [List.mem_cons] at hx
          rcases hx with hx | hx
          · subst hx
            rw [hdd]
            exact ⟨by simp, by simp, fun ht => absurd ht hcond.1⟩
          · exact hacc x (List.mem_cons.mpr hx)
        · exact hacc x (List.mem_cons_of_mem a hx)
    · rename_i hno hdd
      simp only [List.mem_cons] at hx
      rcases hx with hx | hx
      · subst hx
        refine ⟨fun h => hno (Or.inl h), fun h => hno (Or.inr h), fun _ => hdd⟩
      · exact hacc x hx

theorem mem_foldl_cleanStack (r : Bool) (segs : List (List Char)) :
    ∀ acc, ∀ x ∈ segs.foldl (cleanStack r) acc, x ∈ acc ∨ x ∈ segs := by
  induction segs with
  | nil => intro acc x hx; exact Or.inl hx
  | cons s rest ih =>
    intro acc x hx
    rw [List.foldl_cons] at hx
    rcases ih (cleanStack r acc s) x hx with h | h
    · rcases mem_cleanStack r acc s x h with h | h
      · exact Or.inl h
      · exact Or.inr (by rw [h]; exact List.mem_cons_self _ _)
    · exact Or.inr (List.mem_cons_of_mem _ h)

theorem segOK_foldl_cleanStack (r : Bool) (segs : List (List Char)) :
    ∀ acc, (∀ x ∈ acc, SegOK r x) →
      ∀ x ∈ segs.foldl (cleanStack r) acc, SegOK r x := by
  induction segs with
  | nil => intro acc hacc x hx; exact hacc x hx
  | cons s rest ih =>
    intro acc hacc x hx
    rw [List.foldl_cons] at hx
    exact ih (cleanStack r acc s) (segOK_cleanStack r acc s hacc) x hx

theorem cleanSegs_sound (r : Bool) (segs : List (List Char)) :
    ∀ x ∈ cleanSegs r segs, (x ∈ segs ∧ SegOK r x) := by
  intro x hx
  unfold cleanSegs at hx
  rw [List.mem_reverse] at hx
  constructor
  · rcases mem_foldl_cleanStack r segs [] x hx with h | h
    · simp at h
    · exact h
  · exact segOK_foldl_cleanStack r segs [] (by simp) x hx

/-! ### Cleaned absolute paths in render normal form -/

theorem data_empty : ("" : String).data = [] := rfl

theorem data_dot : ("." : String).data = ['.'] := rfl

theorem splitOnChar_sep_cons (sep : Char) (cs : List Char) :
    splitOnChar sep (sep :: cs) = [] :: splitOnChar sep cs := by
  rcases h : splitOnChar sep cs with _ | ⟨s, rest⟩
  · exact absurd h (splitOnChar_ne_nil sep cs)
  · rw [splitOnChar_cons_eq sep sep cs s rest h, if_pos rfl]

theorem absRender_data (segs : List (List Char)) :
    (absRender segs).data = '/' :: joinWithChar '/' segs := rfl

theorem goIsAbs_absRender (segs : List (List Char)) : goIsAbs (absRender segs) = true := rfl

theorem absRender_ne_empty (segs : List (List Char)) : absRender segs ≠ "" := by
  intro h
  have h2 := congrArg String.data h
  rw [absRender_data, data_empty] at h2
  exact List.cons_ne_nil _ _ h2

theorem absRender_ne_dot (segs : List (List Char)) : absRender segs ≠ "." := by
  intro h
  have h2 := congrArg String.data h
  rw [absRender_data, data_dot] at h2
  have := List.head_eq_of_cons_eq h2
  simp at this

theorem joinWithChar_ne_nil (sep : Char) (segs : List (List Char))
    (h : ValidSegs segs) (hne : segs ≠ []) : joinWithChar sep segs ≠ [] := by
  rcases segs with _ | ⟨s, rest⟩
  · exact absurd rfl hne
  · rcases rest with _ | ⟨t, rest'⟩
    · exact (h s (List.mem_cons_self _ _)).1
    · show s ++ sep :: joinWithChar sep (t :: rest') ≠ []
      simp

theorem absRender_injOn (a b : List (List Char)) (ha : ValidSegs a) (hb : ValidSegs b)
    (h : absRender a = absRender b) : a = b := by
  have h2 : joinWithChar '/' a = joinWithChar '/' b := by
    have h3 := congrArg String.data h
    rw [absRender_data, absRender_data] at h3
    exact List.tail_eq_of_cons_eq h3
  by_cases hae : a = []
  · subst hae
    by_cases hbe : b = []
    · rw [hbe]
    · exact absurd h2.symm (joinWithChar_ne_nil '/' b hb hbe)
  · by_cases hbe : b = []
    · subst hbe
      exact absurd h2 (joinWithChar_ne_nil '/' a ha hae)
    · have hfa : ∀ s ∈ a, '/' ∉ s := fun s hs => (ha s hs).2.2.2
      have hfb : ∀ s ∈ b, '/' ∉ s := fun s hs => (hb s hs).2.2.2
      rw [← splitOnChar_joinWithChar '/' a hae hfa, ← splitOnChar_joinWithChar '/' b hbe hfb, h2]

theorem goClean_mk_rooted (X : List Char) :
    goClean (String.mk ('/' :: X)) = absRender (cleanSegs true (splitOnChar '/' X)) := by
  show (match ('/' :: X : List Char) with
    | [] => "."
    | c :: cs =>
      if c = '/' then
        String.mk ('/' :: joinWithChar '/' (cleanSegs true (splitOnChar '/' (c :: cs))))
      else
        let segs := cleanSegs false (splitOnChar '/' (c :: cs))
        if segs = [] then "." else String.mk (joinWithChar '/' segs)) = _
  rw [show (match ('/' :: X : List Char) with
    | [] => "."
    | c :: cs =>
      if c = '/' then
        String.mk ('/' :: joinWithChar '/' (cleanSegs true (splitOnChar '/' (c :: cs))))
      else
        let segs := cleanSegs false (splitOnChar '/' (c :: cs))
        if segs = [] then "." else String.mk (joinWithChar '/' segs)) =
      String.mk ('/' :: joinWithChar '/' (cleanSegs true (splitOnChar '/' ('/' :: X)))) from rfl]
  rw [splitOnChar_sep_cons, cleanSegs_nil_cons]
  rfl

theorem goClean_absRender (segs : List (List Char)) (h : ValidSegs segs) :
    goClean (absRender segs) = absRender segs := by
  have : goClean (absRender segs) = goClean (String.mk ('/' :: joinWithChar '/' segs)) := rfl
  rw [this, goClean_mk_rooted]
  by_cases hne : segs = []
  · subst hne
    rfl
  · have hfree : ∀ s ∈ segs, '/' ∉ s := fun s hs => (h s hs).2.2.2
    rw [splitOnChar_joinWithChar '/' segs hne hfree, cleanSegs_valid true segs h]

theorem dropWhile_all_append {α : Type} (p : α → Bool) (a b : List α)
    (h : ∀ x ∈ a, p x = true) :
    List.dropWhile p (a ++ b) = List.dropWhile p b := by
  induction a with
  | nil => rfl
  | cons x xs ih =>
    rw [List.cons_append, List.dropWhile_cons_of_pos (h x (List.mem_cons_self _ _))]
    exact ih (fun y hy => h y (List.mem_cons_of_mem _ hy))

theorem dirPart_append_last (A v : List Char) (hv : '/' ∉ v) :
    dirPart (A ++ '/' :: v) = A ++ ['/'] := by
  unfold dirPart
  rw [List.reverse_append]
  have h1 : ('/' :: v).reverse = v.reverse ++ ('/' :: []) := by simp
  rw [h1, List.append_assoc]
  rw [dropWhile_all_append _ v.reverse _ (by
    intro x hx
    rw [List.mem_reverse] at hx
    simp only [decide_eq_true_eq]
    intro he
    exact hv (he ▸ hx))]
  rw [List.singleton_append, List.dropWhile_cons_of_neg (by simp)]
  simp

theorem goDir_absRender (segs : List (List Char)) (h : ValidSegs segs) :
    goDir (absRender segs) = absRender segs.dropLast := by
  rcases List.eq_nil_or_concat segs with hnil | ⟨l, v, hlv⟩
  · subst hnil
    decide
  · rw [List.concat_eq_append] at hlv
    subst hlv
    have hl : ValidSegs l := fun x hx => h x (List.mem_append_left _ hx)
    have hv : ValidSeg v := h v (List.mem_append_right _ (List.mem_cons_self _ _))
    have hdata : (absRender (l ++ [v])).data = ('/' :: joinWithChar '/' l) ++ '/' :: v ∨
        (l = [] ∧ (absRender (l ++ [v])).data = [] ++ '/' :: v) := by
      by_cases hle : l = []
      · subst hle
        right
        exact ⟨rfl, by rw [absRender_data]; rfl⟩
      · left
        rw [absRender_data, joinWithChar_append_single '/' l v hle]
        simp
    unfold goDir
    rcases hdata with hdata | ⟨hle, hdata⟩
    · rw [hdata, dirPart_append_last _ v hv.2.2.2]
      have : ('/' :: joinWithChar '/' l) ++ ['/'] = '/' :: (joinWithChar '/' l ++ ['/']) := by simp
      rw [this, goClean_mk_rooted]
      by_cases hle : l = []
      · subst hle
        rw [List.dropLast_concat]
        rfl
      · have : joinWithChar '/' l ++ ['/'] = joinWithChar '/' (l ++ [[]]) := by
          rw [joinWithChar_append_single '/' l [] hle]
        rw [this]
        have hfree : ∀ s ∈ l ++ [[]], '/' ∉ s := by
          intro s hs
          rcases List.mem_append.mp hs with hs | hs
          · exact (hl s hs).2.2.2
          · simp at hs; simp [hs]
        rw [splitOnChar_joinWithChar '/' (l ++ [[]]) (by simp) hfree]
        rw [cleanSegs_append_empty, cleanSegs_valid true l hl, List.dropLast_concat]
    · subst hle
      rw [hdata, List.nil_append]
      have hdp : dirPart ('/' :: v) = ['/'] := by
        have h0 := dirPart_append_last [] v hv.2.2.2
        simpa using h0
      rw [hdp]
      simp only [List.nil_append, List.dropLast_single]
      decide

theorem goJoin_absRender (segs : List (List Char)) (v : List Char)
    (hsegs : ValidSegs segs) (hv : ValidSeg v) :
    goJoin (absRender segs) (String.mk v) = absRender (segs ++ [v]) := by
  have hvne : String.mk v ≠ "" := by
    intro h
    have := congrArg String.data h
    rw [data_mk, data_empty] at this
    exact hv.1 this
  unfold goJoin
  rw [if_neg (by intro h; exact absRender_ne_empty segs h.1)]
  rw [if_neg (absRender_ne_empty segs), if_neg hvne]
  have hdata : (absRender segs).data ++ '/' :: (String.mk v).data =
      '/' :: (joinWithChar '/' segs ++ '/' :: v) := by
    rw [absRender_data, data_mk]
    simp
  rw [hdata, goClean_mk_rooted]
  by_cases hle : segs = []
  · subst hle
    show absRender (cleanSegs true (splitOnChar '/' ('/' :: v))) = _
    rw [splitOnChar_sep_cons, cleanSegs_nil_cons]
    rw [splitOnChar_sep_free '/' v hv.2.2.2]
    rw [cleanSegs_valid true [v] (by intro s hs; simp at hs; rw [hs]; exact hv)]
    rfl
  · have : joinWithChar '/' segs ++ '/' :: v = joinWithChar '/' (segs ++ [v]) := by
      rw [joinWithChar_append_single '/' segs v hle]
    rw [this]
    have hvalid : ValidSegs (segs ++ [v]) := by
      intro s hs
      rcases List.mem_append.mp hs with hs | hs
      · exact hsegs s hs
      · simp at hs; rw [hs]; exact hv
    have hfree : ∀ s ∈ segs ++ [v], '/' ∉ s := fun s hs => (hvalid s hs).2.2.2
    rw [splitOnChar_joinWithChar '/' (segs ++ [v]) (by simp) hfree]
    rw [cleanSegs_valid true _ hvalid]

theorem dropCommon_cons_cons (x y : List Char) (xs ys : List (List Char)) :
    dropCommon (x :: xs) (y :: ys) =
      if x = y then dropCommon xs ys else (x :: xs, y :: ys) := rfl

theorem dropCommon_append (c a b : List (List Char)) :
    dropCommon (c ++ a) (c ++ b) = dropCommon a b := by
  induction c with
  | nil => rfl
  | cons x c' ih =>
    rw [List.cons_append, List.cons_append, dropCommon_cons_cons, if_pos rfl]
    exact ih

theorem relSegs_absRender (segs : List (List Char)) :
    relSegs (absRender segs).data = [] :: splitOnChar '/' (joinWithChar '/' segs) := by
  rw [absRender_data]
  unfold relSegs
  rw [if_neg (by simp), splitOnChar_sep_cons]

theorem validSegs_append_single (segs : List (List Char)) (v : List Char)
    (hsegs : ValidSegs segs) (hv : ValidSeg v) : ValidSegs (segs ++ [v]) := by
  intro s hs
  rcases List.mem_append.mp hs with hs | hs
  · exact hsegs s hs
  · simp at hs; rw [hs]; exact hv

theorem goRel_absRender (segs : List (List Char)) (v : List Char)
    (hsegs : ValidSegs segs) (hv : ValidSeg v) :
    goRel (absRender segs) (absRender (segs ++ [v])) = .ok (String.mk v) := by
  have hvalid : ValidSegs (segs ++ [v]) := validSegs_append_single segs v hsegs hv
  have hclean1 := goClean_absRender segs hsegs
  have hclean2 := goClean_absRender (segs ++ [v]) hvalid
  have hne : absRender (segs ++ [v]) ≠ absRender segs := by
    intro h
    have h2 := absRender_injOn _ _ hvalid hsegs h
    have hlen := congrArg List.length h2
    simp at hlen
  unfold goRel
  rw [hclean1, hclean2]
  rw [if_neg hne, if_neg (absRender_ne_dot segs)]
  simp only [goIsAbs_absRender, relSegs_absRender]
  rw [if_neg (show ¬ ((true : Bool) ≠ true) by simp)]
  by_cases hle : segs = []
  · subst hle
    have h1 : splitOnChar '/' (joinWithChar '/' ([] : List (List Char))) = [[]] := rfl
    have h2 : splitOnChar '/' (joinWithChar '/' [v]) = [v] :=
      splitOnChar_sep_free '/' v hv.2.2.2
    simp only [List.nil_append] at h2 ⊢
    rw [h1, h2]
    have h3 : dropCommon [[], []] [[], v] = ([[]], [v]) := by
      rw [show ([[], []] : List (List Char)) = [[]] ++ [[]] from rfl,
          show ([[], v] : List (List Char)) = [[]] ++ [v] from rfl,
          dropCommon_append, dropCommon_cons_cons, if_neg (fun h => hv.1 h.symm)]
    rw [h3]
    simp [hv.1, joinWithChar]
  · have hfree : ∀ s ∈ segs, '/' ∉ s := fun s hs => (hsegs s hs).2.2.2
    have hfree2 : ∀ s ∈ segs ++ [v], '/' ∉ s := fun s hs => (hvalid s hs).2.2.2
    rw [splitOnChar_joinWithChar '/' segs hle hfree,
        splitOnChar_joinWithChar '/' (segs ++ [v]) (by simp) hfree2]
    have h3 : dropCommon ([] :: segs) ([] :: (segs ++ [v])) = ([], [v]) := by
      rw [show ([] :: segs : List (List Char)) = ([] :: segs) ++ [] by simp,
          show ([] :: (segs ++ [v]) : List (List Char)) = ([] :: segs) ++ [v] by simp,
          dropCommon_append]
      rfl
    rw [h3]
    simp [hv.1, joinWithChar]

/-! ### SplitPath resolution lemmas -/

theorem goIsAbs_data (p : String) (h : goIsAbs p = true) : ∃ cs, p.data = '/' :: cs := by
  unfold goIsAbs at h
  split at h
  · rename_i cs heq
    exact ⟨cs, heq⟩
  · exact absurd h (by simp)

theorem goClean_abs_normal (p : String) (h : goIsAbs p = true) :
    ∃ segs, ValidSegs segs ∧ goClean p = absRender segs := by
  obtain ⟨cs, hdata⟩ := goIsAbs_data p h
  refine ⟨cleanSegs true (splitOnChar '/' cs), ?_, ?_⟩
  · intro s hs
    obtain ⟨hmem, hOK⟩ := cleanSegs_sound true _ s hs
    exact ⟨hOK.1, hOK.2.1, hOK.2.2 rfl, mem_splitOnChar_no_sep '/' cs s hmem⟩
  · obtain ⟨d⟩ := p
    have hd : d = '/' :: cs := hdata
    subst hd
    exact goClean_mk_rooted cs

theorem splitPathLoop_succ (reg : Registry) (vp : String) (fuel : Nat) (rootDir : String) :
    splitPathLoop reg vp (fuel + 1) rootDir =
      match lookupRoot reg.byRoot (goDir rootDir) with
      | none =>
        if goDir rootDir = "/" then .error .driverNotInit
        else splitPathLoop reg vp fuel (goDir rootDir)
      | some _ =>
        match goRel (goDir rootDir) vp with
        | .error e => .error e
        | .ok volumeName => .ok (goDir rootDir, volumeName) := rfl

theorem validSegs_dropLast (segs : List (List Char)) (h : ValidSegs segs) :
    ValidSegs segs.dropLast :=
  fun s hs => h s (List.Sublist.subset (List.dropLast_sublist segs) hs)

theorem goDir_iterate_absRender (k : Nat) :
    ∀ segs : List (List Char), ValidSegs segs →
      goDir^[k] (absRender segs) = absRender ((List.dropLast)^[k] segs) := by
  induction k with
  | zero => intro segs _; simp
  | succ k ih =>
    intro segs h
    rw [Function.iterate_succ_apply, Function.iterate_succ_apply]
    rw [goDir_absRender segs h]
    exact ih segs.dropLast (validSegs_dropLast segs h)

theorem dropLast_iterate_eq_take {α : Type} (k : Nat) :
    ∀ l : List α, (List.dropLast)^[k] l = l.take (l.length - k) := by
  induction k with
  | zero => intro l; simp
  | succ k ih =>
    intro l
    rw [Function.iterate_succ_apply, ih l.dropLast, List.dropLast_eq_take, List.take_take,
        List.length_take]
    congr 1
    omega

theorem length_le_absRender (segs : List (List Char)) (_h : ValidSegs segs) :
    segs.length ≤ (absRender segs).length := by
  have hjoin : segs.length ≤ (joinWithChar '/' segs).length + 1 := by
    clear _h
    induction segs with
    | nil => simp
    | cons s rest ih =>
      rcases rest with _ | ⟨t, rest'⟩
      · simp [joinWithChar]
      · show (s :: t :: rest').length ≤ (s ++ '/' :: joinWithChar '/' (t :: rest')).length + 1
        rw [List.length_append, List.length_cons]
        have := ih
        simp only [List.length_cons] at this ⊢
        omega
  rw [length_eq_data, absRender_data, List.length_cons]
  omega

theorem splitPathLoop_no_bound (reg : Registry) (vp : String) :
    ∀ segs : List (List Char), ValidSegs segs →
      (∀ pre, pre <+: segs → lookupRoot reg.byRoot (absRender pre) = none) →
      ∀ fuel : Nat, segs.length + 1 ≤ fuel →
      splitPathLoop reg vp fuel (absRender segs) = .error .driverNotInit := by
  intro segs
  induction segs using List.reverseRecOn with
  | nil =>
    intro hvalid hpre fuel hfuel
    rcases fuel with _ | fuel
    · simp at hfuel
    · rw [splitPathLoop_succ, goDir_absRender [] hvalid]
      simp only [List.dropLast_nil]
      have h0 := hpre [] List.nil_prefix
      rw [h0]
      rfl
  | append_singleton l a ih =>
    intro hvalid hpre fuel hfuel
    rcases fuel with _ | fuel
    · simp at hfuel
    · rw [splitPathLoop_succ, goDir_absRender _ hvalid, List.dropLast_concat]
      have h0 := hpre l (List.prefix_append l [a])
      rw [h0]
      have hvl : ValidSegs l := fun s hs => hvalid s (List.mem_append_left _ hs)
      by_cases hle : l = []
      · subst hle
        rfl
      · have hne : absRender l ≠ "/" := by
          intro h
          exact hle (absRender_injOn l [] hvl (by intro s hs; simp at hs) h)
        have hprel : ∀ pre, pre <+: l → lookupRoot reg.byRoot (absRender pre) = none :=
          fun pre hp => hpre pre (hp.trans (List.prefix_append l [a]))
        have hfl : l.length + 1 ≤ fuel := by
          rw [List.length_append] at hfuel
          simp at hfuel
          omega
        have hrec := ih hvl hprel fuel hfl
        show (if absRender l = "/" then (Except.error VolErr.driverNotInit : Except VolErr (String × String))
          else splitPathLoop reg vp fuel (absRender l)) = Except.error VolErr.driverNotInit
        rw [if_neg hne]
        exact hrec

theorem SplitPath_eq (reg : Registry) (p : String) :
    SplitPath reg p =
      if ¬ goIsAbs (goClean p) then .error .pathIsNotAbs
      else if (lookupRoot reg.byRoot (goClean p)).isSome then .ok (p, "")
      else splitPathLoop reg p ((goClean p).length + 1) (goClean p) := rfl

theorem splitPath_bound_root (reg : Registry) (R : String)
    (habs : goIsAbs (goClean R) = true)
    (hbound : (lookupRoot reg.byRoot (goClean R)).isSome = true) :
    SplitPath reg R = .ok (R, "") := by
  rw [SplitPath_eq, if_neg (by simp [habs]), if_pos hbound]

theorem splitPath_join_unbound (reg : Registry) (R V : String)
    (habs : goIsAbs R = true) (hclean : goClean R = R)
    (hbound : (lookupRoot reg.byRoot R).isSome = true)
    (hV : ValidSeg V.data)
    (hunbound : lookupRoot reg.byRoot (goJoin R V) = none) :
    SplitPath reg (goJoin R V) = .ok (R, V) := by
  obtain ⟨segs, hvalid, hnf⟩ := goClean_abs_normal R habs
  rw [hclean] at hnf
  have hvv : ValidSegs (segs ++ [V.data]) := validSegs_append_single segs V.data hvalid hV
  have hjoin : goJoin R V = absRender (segs ++ [V.data]) := by
    rw [hnf]
    have h1 := goJoin_absRender segs V.data hvalid hV
    rw [mk_data] at h1
    exact h1
  obtain ⟨d, hd⟩ := Option.isSome_iff_exists.mp hbound
  rw [hnf] at hd
  rw [hjoin] at hunbound ⊢
  rw [SplitPath_eq, goClean_absRender _ hvv]
  rw [if_neg (by simp [goIsAbs_absRender])]
  rw [hunbound]
  simp only [Option.isSome_none]
  rw [if_neg (by simp)]
  rw [splitPathLoop_succ, goDir_absRender _ hvv, List.dropLast_concat, hd]
  have hrel := goRel_absRender segs V.data hvalid hV
  simp [hrel, hnf, mk_data]

theorem splitPath_no_bound (reg : Registry) (p : String)
    (habs : goIsAbs p = true)
    (h : ∀ k : Nat, lookupRoot reg.byRoot (goDir^[k] (goClean p)) = none) :
    SplitPath reg p = .error .driverNotInit := by
  obtain ⟨segs, hvalid, hnf⟩ := goClean_abs_normal p habs
  have habs2 : goIsAbs (goClean p) = true := by rw [hnf]; exact goIsAbs_absRender segs
  have h0 : lookupRoot reg.byRoot (goClean p) = none := by
    have h0 := h 0
    rwa [Function.iterate_zero_apply] at h0
  rw [SplitPath_eq, if_neg (by simp [habs2]), h0]
  simp only [Option.isSome_none]
  rw [if_neg (by simp)]
  rw [hnf]
  apply splitPathLoop_no_bound reg p segs hvalid
  · intro pre hpre
    have hk := h (segs.length - pre.length)
    rw [hnf, goDir_iterate_absRender _ segs hvalid, dropLast_iterate_eq_take] at hk
    obtain ⟨t, ht⟩ := hpre
    have hle : pre.length ≤ segs.length := by rw [← ht]; simp
    have heq : segs.length - (segs.length - pre.length) = pre.length := by omega
    rw [heq, ← ht, List.take_left] at hk
    exact hk
  · have := length_le_absRender segs hvalid
    omega

/-! ### Claim C1 -/

/-- Claim C1: the claim states that for a registered backend kind and an
unbound canonical absolute root, `InitDriver` succeeds and `GetDriver`
then returns a driver of that kind, in particular on a fresh root where
detection reports not-initialized.  The code does the opposite on a
fresh root: `DetectDriverType` returns the pair (empty type,
`ErrDriverNotInit`), the error is tolerated by the first condition, but
the subsequent `t != name` comparison sees the empty type and runs
`glog.Fatalf` (process abort; the `ErrDriverAlreadyInit` return after it
is dead code).  This theorem evaluates the code at the failing input:
kind rsync registered, fresh root `/volumes`, detection reporting
not-initialized — `InitDriver` hits the fatal branch and the registry
keeps no driver for the root. -/
theorem C1_initDriver_fatal_on_fresh_root :
    (InitDriver detectFresh regFresh DRIVER_RSYNC "/volumes" []).isFatal = true ∧
    isNotInitErr (GetDriver regFresh "/volumes") = true := by
  decide

/-! ### Claim C2 -/

/-- Claim C2 (amended): `SplitPath` inverts path composition for a bound
canonical absolute root `R` and a volume name `V` that is a single plain
path segment, provided `join(R, V)` is not itself a bound root (with
nested bound roots the joined path wins the lookup, see the
counterexample); `SplitPath(R)` of a bound root returns an empty
remainder; and an absolute path none of whose parent directories
(itself included) is a bound root yields the not-initialized error. -/
theorem C2_splitPath_inverts_join (reg : Registry) (R V p : String) :
    (goIsAbs R = true → goClean R = R → (lookupRoot reg.byRoot R).isSome = true →
      ValidSeg V.data → lookupRoot reg.byRoot (goJoin R V) = none →
      SplitPath reg (goJoin R V) = .ok (R, V)) ∧
    (goIsAbs (goClean R) = true → (lookupRoot reg.byRoot (goClean R)).isSome = true →
      SplitPath reg R = .ok (R, "")) ∧
    (goIsAbs p = true →
      (∀ k : Nat, lookupRoot reg.byRoot (goDir^[k] (goClean p)) = none) →
      SplitPath reg p = .error .driverNotInit) :=
  ⟨fun h1 h2 h3 h4 h5 => splitPath_join_unbound reg R V h1 h2 h3 h4 h5,
   fun h1 h2 => splitPath_bound_root reg R h1 h2,
   fun h1 h2 => splitPath_no_bound reg p h1 h2⟩

/-- Claim C2 counterexample: with the nested roots `/a` and `/a/b` both
bound, `R = /a` is a bound root and `V = b` is a single path segment,
but `SplitPath(join(R, V))` returns `(/a/b, "")` — the path itself wins
the registry lookup — and not `(R, V)` as the claim as stated demands. -/
theorem C2_counterexample :
    SplitPath regNested (goJoin "/a" "b") = .ok ("/a/b", "") ∧
    (("/a/b" : String), ("" : String)) ≠ (("/a" : String), ("b" : String)) := by
  decide

/-- Claim C2 witness: the amended theorem applied in a registry binding
only `/a`: the join case at `R = /a`, `V = b`, the driver case at `/a`,
and the not-initialized case at `/c/d`. -/
theorem C2_witness :
    SplitPath regA (goJoin "/a" "b") = .ok ("/a", "b") ∧
    SplitPath regA "/a" = .ok ("/a", "") ∧
    SplitPath regA "/c/d" = .error .driverNotInit := by
  refine ⟨(C2_splitPath_inverts_join regA "/a" "b" "/c/d").1 (by decide) (by decide)
      (by decide) (by decide) (by decide),
    (C2_splitPath_inverts_join regA "/a" "b" "/c/d").2.1 (by decide) (by decide),
    (C2_splitPath_inverts_join regA "/a" "b" "/c/d").2.2 (by decide) ?_⟩
  intro k
  match k with
  | 0 => decide
  | 1 => decide
  | n + 2 =>
    have h2 : goDir^[n + 2] (goClean "/c/d") = "/" := by
      have hstep : goDir (goDir (goClean "/c/d")) = "/" := by decide
      have : goDir^[n + 2] (goClean "/c/d") = goDir^[n] (goDir (goDir (goClean "/c/d"))) := by
        rw [Function.iterate_succ_apply, Function.iterate_succ_apply]
      rw [this, hstep]
      exact Function.iterate_fixed (by decide) n
    rw [h2]
    decide

/-! ### Claim C5 -/

theorem Mount_eq (reg : Registry) (name root : String) :
    Mount reg name root =
      match SplitPath reg (goJoin root name) with
      | .error e => .error e
      | .ok (rDir, vName) =>
        if rDir ≠ root then .error .badMount
        else if vName = "" then .error .pathIsDriver
        else
          match GetDriver reg root with
          | .error e => .error e
          | .ok driver =>
            if driver.existsF name then driver.getF name else driver.createF name := rfl

/-- Claim C5 (amended): `Mount(name, root)` fails whenever splitting the
rejoined path does not produce `root` itself together with a nonempty
remainder (this covers path-traversal names, whose rejoined path
resolves under a different root or no root at all); when the split does
return `root` with a nonempty remainder — even a remainder different
from `name`, see the counterexample — it proceeds, loading the volume if
the driver reports it exists and creating it otherwise. -/
theorem C5_mount_guard (reg : Registry) (name root : String) :
    ((∀ r v, SplitPath reg (goJoin root name) = .ok (r, v) → r ≠ root ∨ v = "") →
      ∃ e, Mount reg name root = .error e) ∧
    (∀ v, SplitPath reg (goJoin root name) = .ok (root, v) → v ≠ "" →
      Mount reg name root =
        match GetDriver reg root with
        | .error e => .error e
        | .ok driver =>
          if driver.existsF name then driver.getF name else driver.createF name) := by
  constructor
  · intro hyp
    rcases hsp : SplitPath reg (goJoin root name) with e | ⟨r, v⟩
    · exact ⟨e, by rw [Mount_eq, hsp]⟩
    · rcases hyp r v hsp with hne | hve
      · exact ⟨.badMount, by rw [Mount_eq, hsp]; simp [hne]⟩
      · subst hve
        by_cases hr : r = root
        · subst hr
          exact ⟨.pathIsDriver, by rw [Mount_eq, hsp]; simp⟩
        · exact ⟨.badMount, by rw [Mount_eq, hsp]; simp [hr]⟩
  · intro v hsp hv
    rw [Mount_eq, hsp]
    simp [hv]

/-- Claim C5 counterexample: in a registry binding `/a`, the name `b/.`
rejoins to `/a/b`, which splits to `(/a, b)` — not `(/a, b/.)` — yet
`Mount` does not fail: it proceeds (with the original name `b/.`) and
returns the volume the driver reports, refuting "fails whenever
splitting the rejoined path does not yield exactly the pair
(root, name)". -/
theorem C5_counterexample :
    SplitPath regA (goJoin "/a" "b/.") = .ok ("/a", "b") ∧
    (("/a" : String), ("b" : String)) ≠ (("/a" : String), ("b/." : String)) ∧
    Mount regA "b/." "/a" = .ok (testVol "b/.") := by
  decide

/-- Claim C5 witness: the amended theorem applied concretely — the
traversal name `..` under bound root `/a` makes `Mount` fail, and the
plain name `b` proceeds to the driver dispatch. -/
theorem C5_witness :
    (∃ e, Mount regA ".." "/a" = .error e) ∧
    Mount regA "b" "/a" =
      (match GetDriver regA "/a" with
       | .error e => .error e
       | .ok driver =>
         if driver.existsF "b" then driver.getF "b" else driver.createF "b") := by
  constructor
  · apply (C5_mount_guard regA ".." "/a").1
    intro r v h
    rw [show SplitPath regA (goJoin "/a" "..") = .error .driverNotInit by decide] at h
    exact Except.noConfusion h
  · exact (C5_mount_guard regA "b" "/a").2 "b" (by decide) (by decide)

/-! ### Claim C10 -/

theorem foldl_set_zero (cs : List String) (hne : cs ≠ []) :
    ∀ init : List String, init ≠ [] →
      cs.foldl (fun acc key => acc.set 0 key) init = cs.getLast hne :: init.tail := by
  induction cs with
  | nil => exact absurd rfl hne
  | cons c cs' ih =>
    intro init hinit
    rw [List.foldl_cons]
    rcases init with _ | ⟨i, t⟩
    · exact absurd rfl hinit
    · by_cases hcs : cs' = []
      · subst hcs
        simp [List.getLast, List.set_cons_zero]
      · have hset : (i :: t).set 0 c = c :: t := rfl
        rw [hset, ih hcs (c :: t) (by simp), List.getLast_cons hcs]
        rfl

theorem exists_mem_ne (l : List String) (hlen : 2 ≤ l.length) (hnd : l.Nodup) (a : String) :
    ∃ c ∈ l, c ≠ a := by
  rcases l with _ | ⟨x, l'⟩
  · simp at hlen
  · rcases l' with _ | ⟨y, t⟩
    · simp at hlen
    · have hxy : x ≠ y := by
        have h1 := (List.nodup_cons.mp hnd).1
        intro h
        exact h1 (by rw [h]; exact List.mem_cons_self _ _)
      by_cases hx : x = a
      · exact ⟨y, by simp, by rw [← hx]; exact fun h => hxy h.symm⟩
      · exact ⟨x, by simp, hx⟩

/-- Claim C10: `Clients` allocates a slice of the size of the client set
but never increments the loop index, so only index 0 is written: the
result is one client (the last one iterated) followed by empty strings.
For a client set of n ≥ 2 distinct nonempty addresses the result has
length n, contains exactly one client address and n-1 empty strings, and
never contains all of the permitted client addresses. -/
theorem C10_clients_index_bug (st : NfsState)
    (hlen : 2 ≤ st.clients.length) (hnd : st.clients.Nodup)
    (hne : "" ∉ st.clients) :
    (Clients st).length = st.clients.length ∧
    (∃ a ∈ st.clients, Clients st = a :: List.replicate (st.clients.length - 1) "") ∧
    ((Clients st).filter (fun s => s ≠ "")).length = 1 ∧
    ¬ (∀ c ∈ st.clients, c ∈ Clients st) := by
  have hcne : st.clients ≠ [] := by
    intro h
    rw [h] at hlen
    simp at hlen
  have hrep : (List.replicate st.clients.length "").tail
      = List.replicate (st.clients.length - 1) "" := by
    rcases h : st.clients.length with _ | n
    · simp
    · simp [List.replicate]
  have heq : Clients st = st.clients.getLast hcne ::
      List.replicate (st.clients.length - 1) "" := by
    unfold Clients
    rw [foldl_set_zero st.clients hcne _ (by
      intro h
      have h2 : (List.replicate st.clients.length "").length = st.clients.length := by simp
      rw [h] at h2
      simp at h2
      omega)]
    rw [hrep]
  have hlast : st.clients.getLast hcne ∈ st.clients := List.getLast_mem hcne
  have hlastne : st.clients.getLast hcne ≠ "" := fun h => hne (h ▸ hlast)
  refine ⟨?_, ⟨st.clients.getLast hcne, hlast, heq⟩, ?_, ?_⟩
  · rw [heq, List.length_cons, List.length_replicate]
    omega
  · rw [heq]
    rw [List.filter_cons]
    rw [if_pos (by simp [hlastne])]
    have hfrep : (List.replicate (st.clients.length - 1) "").filter (fun s => s ≠ "") = [] := by
      apply List.filter_eq_nil_iff.mpr
      intro a ha
      have := List.eq_of_mem_replicate ha
      simp [this]
    rw [hfrep]
    rfl
  · intro hall
    obtain ⟨c, hc, hcne2⟩ := exists_mem_ne st.clients hlen hnd (st.clients.getLast hcne)
    have hcmem := hall c hc
    rw [heq] at hcmem
    rcases List.mem_cons.mp hcmem with h | h
    · exact hcne2 h
    · exact hne ((List.eq_of_mem_replicate h) ▸ hc)

/-- Claim C10 witness: two distinct clients a and b; the slice has
length 2 with exactly one nonempty entry and misses one of the
addresses. -/
theorem C10_witness :
    (Clients { stFix with clients := ["a", "b"] }).length = 2 ∧
    (∃ a ∈ ({ stFix with clients := ["a", "b"] } : NfsState).clients,
      Clients { stFix with clients := ["a", "b"] } = a :: List.replicate 1 "") ∧
    ((Clients { stFix with clients := ["a", "b"] }).filter (fun s => s ≠ "")).length = 1 ∧
    ¬ (∀ c ∈ ({ stFix with clients := ["a", "b"] } : NfsState).clients,
      c ∈ Clients { stFix with clients := ["a", "b"] }) := by
  have h := C10_clients_index_bug { stFix with clients := ["a", "b"] }
    (by decide) (by decide) (by decide)
  exact h

/-! ### Claim C8 -/

/-- Claim C8: the bind-mount retry policy.  An already-bind-mounted
destination returns success without running any mount command (empty
command trace); a first failure whose exit status has bit 32 set is
retried exactly once with the added remount option, after which success
or the combined-output error of the retry is returned; a first failure
without that bit is surfaced directly with combined output, with no
retry. -/
theorem C8_bind_mount_retry (env : BindEnv) (src dst : String) :
    (env.isMounted dst = .ok true → bindMountImp env src dst = (.ok (), [])) ∧
    (∀ out c, env.isMounted dst = .ok false → env.mkdirErr dst = none →
      env.run src dst ["bind"] = (out, some c) →
      (getExitStatus c).2 = true → (getExitStatus c).1 &&& 32 ≠ 0 →
      (bindMountImp env src dst).2 = [["bind"], ["bind", "remount"]] ∧
      (∀ out2, env.run src dst ["bind", "remount"] = (out2, none) →
        (bindMountImp env src dst).1 = .ok ()) ∧
      (∀ out2 c2, env.run src dst ["bind", "remount"] = (out2, some c2) →
        (bindMountImp env src dst).1 = .error (out2 ++ ": " ++ c2.msg))) ∧
    (∀ out c, env.isMounted dst = .ok false → env.mkdirErr dst = none →
      env.run src dst ["bind"] = (out, some c) →
      ¬ ((getExitStatus c).2 = true ∧ (getExitStatus c).1 &&& 32 ≠ 0) →
      bindMountImp env src dst = (.error (out ++ ": " ++ c.msg), [["bind"]])) := by
  refine ⟨?_, ?_, ?_⟩
  · intro h
    simp [bindMountImp, h]
  · intro out c h1 h2 h3 h4 h5
    refine ⟨?_, ?_, ?_⟩
    · rcases hr : env.run src dst ["bind", "remount"] with ⟨out2, r2⟩
      rcases r2 with _ | c2 <;>
        simp [bindMountImp, h1, h2, h3, hr, if_pos (And.intro h4 h5), h4, h5]
    · intro out2 hr
      simp [bindMountImp, h1, h2, h3, hr, h4, h5]
    · intro out2 c2 hr
      simp [bindMountImp, h1, h2, h3, hr, h4, h5]
  · intro out c h1 h2 h3 h4
    simp [bindMountImp, h1, h2, h3, if_neg h4]

/-- Claim C8 witness: the theorem applied to a concrete environment in
every branch: an already-mounted destination, a stale-handle failure
(exit status 32) whose retry succeeds, one whose retry fails, and a
plain failure (exit status 1) that is not retried. -/
theorem C8_witness :
    bindMountImp
      { isMounted := fun _ => .ok true, mkdirErr := fun _ => none,
        run := fun _ _ _ => ("", none) } "/s" "/d" = (.ok (), []) ∧
    bindMountImp
      { isMounted := fun _ => .ok false, mkdirErr := fun _ => none,
        run := fun _ _ opts =>
          if opts = ["bind"] then ("stale", some { msg := "exit status 32", exit := some 32 })
          else ("", none) } "/s" "/d" = (.ok (), [["bind"], ["bind", "remount"]]) ∧
    (bindMountImp
      { isMounted := fun _ => .ok false, mkdirErr := fun _ => none,
        run := fun _ _ opts =>
          if opts = ["bind"] then ("stale", some { msg := "exit status 32", exit := some 32 })
          else ("again", some { msg := "exit status 32", exit := some 32 }) } "/s" "/d").1
      = .error "again: exit status 32" ∧
    bindMountImp
      { isMounted := fun _ => .ok false, mkdirErr := fun _ => none,
        run := fun _ _ _ => ("denied", some { msg := "exit status 1", exit := some 1 }) }
      "/s" "/d" = (.error "denied: exit status 1", [["bind"]]) := by
  refine ⟨?_, ?_, ?_, ?_⟩
  · exact (C8_bind_mount_retry _ "/s" "/d").1 rfl
  · have h := (C8_bind_mount_retry
      { isMounted := fun _ => .ok false, mkdirErr := fun _ => none,
        run := fun _ _ opts =>
          if opts = ["bind"] then ("stale", some { msg := "exit status 32", exit := some 32 })
          else ("", none) } "/s" "/d").2.1 "stale"
      { msg := "exit status 32", exit := some 32 } rfl rfl (by decide) (by decide) (by decide)
    have h1 := h.1
    have h2 := h.2.1 "" (by decide)
    rcases hb : bindMountImp
      { isMounted := fun _ => .ok false, mkdirErr := fun _ => none,
        run := fun _ _ opts =>
          if opts = ["bind"] then ("stale", some { msg := "exit status 32", exit := some 32 })
          else ("", none) } "/s" "/d" with ⟨res, trace⟩
    rw [hb] at h1 h2
    simp only [] at h1 h2
    rw [Prod.mk.injEq]
    exact ⟨h2, h1⟩
  · exact ((C8_bind_mount_retry _ "/s" "/d").2.1 "stale"
      { msg := "exit status 32", exit := some 32 } rfl rfl (by decide) (by decide)
      (by decide)).2.2 "again" { msg := "exit status 32", exit := some 32 } (by decide)
  · exact (C8_bind_mount_retry _ "/s" "/d").2.2 "denied"
      { msg := "exit status 1", exit := some 1 } rfl rfl (by decide) (by decide)

/-! ### Claim C9 -/

theorem cleanup_fold_eq (st : NfsState) (env : SyncEnv) (edir : String)
    (hok : ∀ d, ∃ b, env.isMountedChk d = .ok b)
    (hum : ∀ d, env.umountErr d = none)
    (hrm : ∀ d, env.removeErr d = none) :
    ∀ (entries : List (String × Bool)) (acc : List String × List String),
      entries.foldl (cleanupEntry st env edir) acc =
        (acc.1 ++ (entries.filter
            (fun e => e.2 && ! decide (e.1 ∈ st.exported))).map
            (fun e => goJoin edir e.1),
         acc.2 ++ (entries.filter
            (fun e => e.2 && ! decide (e.1 ∈ st.exported) &&
              decide (env.isMountedChk (goJoin edir e.1) = .ok true))).map
            (fun e => goJoin edir e.1)) := by
  intro entries
  induction entries with
  | nil => intro acc; simp
  | cons e rest ih =>
    intro acc
    rcases e with ⟨n, d⟩
    rw [List.foldl_cons]
    by_cases h1 : n ∈ st.exported
    · have hstep : cleanupEntry st env edir acc (n, d) = acc := by
        unfold cleanupEntry
        rw [if_pos h1]
      rw [hstep, ih acc]
      simp [List.filter_cons, h1]
    · rcases d with _ | _
      · have hstep : cleanupEntry st env edir acc (n, false) = acc := by
          unfold cleanupEntry
          rw [if_neg h1, if_pos (by simp)]
        rw [hstep, ih acc]
        simp [List.filter_cons]
      · obtain ⟨b, hb⟩ := hok (goJoin edir n)
        rcases b with _ | _
        · have hstep : cleanupEntry st env edir acc (n, true) =
              (acc.1 ++ [goJoin edir n], acc.2) := by
            simp [cleanupEntry, h1, hb, hrm (goJoin edir n)]
          rw [hstep, ih _]
          simp [List.filter_cons, h1, hb, List.append_assoc]
        · have hstep : cleanupEntry st env edir acc (n, true) =
              (acc.1 ++ [goJoin edir n], acc.2 ++ [goJoin edir n]) := by
            simp [cleanupEntry, h1, hb, hum (goJoin edir n), hrm (goJoin edir n)]
          rw [hstep, ih _]
          simp [List.filter_cons, h1, hb, List.append_assoc]

/-- Claim C9 (amended): when the mounted-state check, unmounts and
removals all succeed, `cleanupBindMounts` removes exactly the
directories under the export directory whose names are directory entries
absent from the exported set — whether or not they are bind-mounted (see
the counterexample: a non-bind-mounted absent directory is removed too)
— unmounting exactly the bind-mounted ones among them; every removed or
unmounted path is the image of a non-exported directory entry, so
entries whose names are in the exported set are left untouched. -/
theorem C9_cleanup_exact (st : NfsState) (env : SyncEnv)
    (hok : ∀ d, ∃ b, env.isMountedChk d = .ok b)
    (hum : ∀ d, env.umountErr d = none)
    (hrm : ∀ d, env.removeErr d = none) :
    cleanupBindMounts st env =
      ((env.entries.filter
          (fun e => e.2 && ! decide (e.1 ∈ st.exported))).map
          (fun e => goJoin (goJoin env.exportsDir st.exportedName) e.1),
       (env.entries.filter
          (fun e => e.2 && ! decide (e.1 ∈ st.exported) &&
            decide (env.isMountedChk
              (goJoin (goJoin env.exportsDir st.exportedName) e.1) = .ok true))).map
          (fun e => goJoin (goJoin env.exportsDir st.exportedName) e.1)) ∧
    (∀ x, x ∈ (cleanupBindMounts st env).1 ∨ x ∈ (cleanupBindMounts st env).2 →
      ∃ n, (n, true) ∈ env.entries ∧ n ∉ st.exported ∧
        x = goJoin (goJoin env.exportsDir st.exportedName) n) := by
  have hfold := cleanup_fold_eq st env (goJoin env.exportsDir st.exportedName)
    hok hum hrm env.entries ([], [])
  have hcb : cleanupBindMounts st env = _ := hfold
  constructor
  · rw [hcb]
    simp
  · intro x hx
    rw [hcb] at hx
    simp only [List.nil_append] at hx
    rcases hx with hx | hx
    · obtain ⟨e, he, hxe⟩ := List.mem_map.mp hx
      obtain ⟨hmem, hpred⟩ := List.mem_filter.mp he
      rcases e with ⟨n, d⟩
      simp only [Bool.and_eq_true, decide_eq_true_eq] at hpred
      refine ⟨n, ?_, ?_, hxe.symm⟩
      · have : d = true := hpred.1
        rw [← this]
        exact hmem
      · have := hpred.2
        simp at this
        exact this
    · obtain ⟨e, he, hxe⟩ := List.mem_map.mp hx
      obtain ⟨hmem, hpred⟩ := List.mem_filter.mp he
      rcases e with ⟨n, d⟩
      simp only [Bool.and_eq_true, decide_eq_true_eq] at hpred
      refine ⟨n, ?_, ?_, hxe.symm⟩
      · have : d = true := hpred.1.1
        rw [← this]
        exact hmem
      · have := hpred.1.2
        simp at this
        exact this

/-- Claim C9 counterexample: an absent directory entry `x` that is not
bind-mounted (mounted check returns false) is nevertheless removed, so
the removed set is not "exactly those bind-mounted directories absent
from the exported set" — here that set is empty while the removal list
is not. -/
theorem C9_counterexample :
    (cleanupBindMounts { stFix with exported := [] }
      { envFix with entries := [("x", true)] }).1 = ["/exports/shares/x"] ∧
    ({ envFix with entries := [("x", true)] } : SyncEnv).isMountedChk "/exports/shares/x"
      = .ok false ∧
    (cleanupBindMounts { stFix with exported := [] }
      { envFix with entries := [("x", true)] }).2 = [] := by
  decide

/-- Claim C9 witness: the amended theorem at a concrete environment with
one exported entry kept, one stale entry removed. -/
theorem C9_witness :
    cleanupBindMounts { stFix with exported := ["keep"] }
      { envFix with entries := [("keep", true), ("stale", true)] } =
      (["/exports/shares/stale"], []) ∧
    (∀ x, x ∈ (cleanupBindMounts { stFix with exported := ["keep"] }
        { envFix with entries := [("keep", true), ("stale", true)] }).1 ∨
       x ∈ (cleanupBindMounts { stFix with exported := ["keep"] }
        { envFix with entries := [("keep", true), ("stale", true)] }).2 →
      ∃ n, (n, true) ∈ [("keep", true), ("stale", true)] ∧ n ∉ ["keep"] ∧
        x = goJoin (goJoin "/exports" "shares") n) := by
  have h := C9_cleanup_exact { stFix with exported := ["keep"] }
    { envFix with entries := [("keep", true), ("stale", true)] }
    (fun d => ⟨false, rfl⟩) (fun d => rfl) (fun d => rfl)
  refine ⟨?_, h.2⟩
  rw [h.1]
  decide

/-! ### Frame lemmas for the reconciliation steps -/

theorem hostsDeny_frame (env : SyncEnv) (w : World) :
    (hostsDeny env w).1.allowFile = w.allowFile ∧
    (hostsDeny env w).1.exportsFile = w.exportsFile := by
  by_cases h1 : containsStr (w.denyFile.getD "") hostDenyDefaults
  · simp [hostsDeny, h1]
  · by_cases h2 : env.writeDenyOk
    · simp [hostsDeny, h1, h2]
    · simp [hostsDeny, h1, h2]

theorem hostsAllow_spec (st : NfsState) (env : SyncEnv) (w : World)
    (h : (hostsAllow st env w).2 = none) :
    (hostsAllow st env w).1.allowFile =
      some (stripAtMarkerStr (w.allowFile.getD "") hostAllowMarker ++
        hostAllowDefaults ++ " " ++ joinWithStr " " (sortStrings st.clients) ++ "\n\n") ∧
    (hostsAllow st env w).1.exportsFile = w.exportsFile := by
  by_cases he : env.writeAllowOk
  · simp [hostsAllow, he]
  · simp [hostsAllow, he] at h

theorem writeExports_allowFile (st : NfsState) (env : SyncEnv) (w : World) :
    (writeExports st env w).2.1.allowFile = w.allowFile := by
  by_cases h1 : env.mkdirExportsDirOk
  · by_cases h2 : env.mkdirEdirOk
    · rcases hl : exportsLoop env (goJoin env.exportsDir st.exportedName)
        (if st.network = "0.0.0.0/0" then "*" else st.network) st.volumes [] "" with e | p
      · simp [writeExports, h1, h2, hl]
      · rcases p with ⟨exports, gen⟩
        by_cases h3 : env.writeExportsOk
        · simp [writeExports, h1, h2, hl, h3]
        · simp [writeExports, h1, h2, hl, h3]
    · simp [writeExports, h1, h2]
  · simp [writeExports, h1]

theorem Sync_success (st : NfsState) (env : SyncEnv) (w : World) (st' : NfsState) (w' : World)
    (h : Sync st env w = (st', w', none)) :
    ∃ w1 w2, hostsDeny env w = (w1, none) ∧ hostsAllow st env w1 = (w2, none) ∧
      writeExports st env w2 = (st', w', none) ∧
      env.startOk = true ∧ env.reloadOk = true := by
  rcases h1 : hostsDeny env w with ⟨w1, e1⟩
  rcases e1 with _ | e1
  · rcases h2 : hostsAllow st env w1 with ⟨w2, e2⟩
    rcases e2 with _ | e2
    · rcases h3 : writeExports st env w2 with ⟨st1, w3e⟩
      rcases w3e with ⟨w3, e3⟩
      rcases e3 with _ | e3
      · by_cases hstart : env.startOk
        · by_cases hreload : env.reloadOk
          · unfold Sync at h
            simp only [h1, h2, h3] at h
            simp [hstart, hreload] at h
            obtain ⟨hst, hw⟩ := h
            exact ⟨w1, w2, rfl, h2, by rw [h3, hst, hw], hstart, hreload⟩
          · exfalso
            unfold Sync at h
            simp only [h1, h2, h3] at h
            simp [hstart, hreload] at h
        · exfalso
          unfold Sync at h
          simp only [h1, h2, h3] at h
          simp [hstart] at h
      · exfalso
        unfold Sync at h
        simp only [h1, h2, h3] at h
        simp at h
    · exfalso
      unfold Sync at h
      simp only [h1, h2] at h
      simp at h
  · exfalso
    unfold Sync at h
    simp only [h1] at h
    simp at h

/-! ### Sorting and set lemmas for the client list -/

theorem char_toNat_inj (a b : Char) (h : a.toNat = b.toNat) : a = b := by
  have ha := Char.ofNat_toNat a
  rw [← ha, ← Char.ofNat_toNat b, h]

theorem charListLe_total (a : List Char) : ∀ b, charListLe a b = true ∨ charListLe b a = true := by
  induction a with
  | nil => intro b; left; rfl
  | cons x xs ih =>
    intro b
    rcases b with _ | ⟨y, ys⟩
    · right; rfl
    · show (if x = y then charListLe xs ys else decide (x.toNat < y.toNat)) = true ∨
        (if y = x then charListLe ys xs else decide (y.toNat < x.toNat)) = true
      by_cases hxy : x = y
      · subst hxy
        rw [if_pos rfl, if_pos rfl]
        exact ih ys
      · rw [if_neg hxy, if_neg (fun h => hxy h.symm)]
        rcases Nat.lt_trichotomy x.toNat y.toNat with h | h | h
        · left; simp [h]
        · exact absurd (char_toNat_inj x y h) hxy
        · right; simp [h]

theorem charListLe_trans (a : List Char) :
    ∀ b c, charListLe a b = true → charListLe b c = true → charListLe a c = true := by
  induction a with
  | nil => intro b c _ _; rfl
  | cons x xs ih =>
    intro b c hab hbc
    rcases b with _ | ⟨y, ys⟩
    · exact absurd hab (by simp [charListLe])
    · rcases c with _ | ⟨z, zs⟩
      · exact absurd hbc (by simp [charListLe])
      · show (if x = z then charListLe xs zs else decide (x.toNat < z.toNat)) = true
        have hab' : (if x = y then charListLe xs ys else decide (x.toNat < y.toNat)) = true := hab
        have hbc' : (if y = z then charListLe ys zs else decide (y.toNat < z.toNat)) = true := hbc
        by_cases hxy : x = y
        · subst hxy
          rw [if_pos rfl] at hab'
          by_cases hyz : x = z
          · subst hyz
            rw [if_pos rfl] at hbc'
            rw [if_pos rfl]
            exact ih ys zs hab' hbc'
          · rw [if_neg hyz] at hbc'
            rw [if_neg hyz]
            exact hbc'
        · rw [if_neg hxy] at hab'
          by_cases hyz : y = z
          · subst hyz
            rw [if_neg hxy]
            exact hab'
          · rw [if_neg hyz] at hbc'
            by_cases hxz : x = z
            · exfalso
              subst hxz
              simp only [decide_eq_true_eq] at hab' hbc'
              omega
            · rw [if_neg hxz]
              simp only [decide_eq_true_eq] at hab' hbc' ⊢
              omega

theorem strLe_total (a b : String) : strLe a b = true ∨ strLe b a = true :=
  charListLe_total a.data b.data

theorem strLe_trans (a b c : String) (h1 : strLe a b = true) (h2 : strLe b c = true) :
    strLe a c = true :=
  charListLe_trans a.data b.data c.data h1 h2

theorem mem_insertSorted (x : String) :
    ∀ l y, y ∈ insertSorted x l ↔ y = x ∨ y ∈ l := by
  intro l
  induction l with
  | nil => intro y; simp [insertSorted]
  | cons z zs ih =>
    intro y
    unfold insertSorted
    by_cases h : strLe x z
    · rw [if_pos h]
      simp [List.mem_cons]
    · rw [if_neg h]
      simp only [List.mem_cons, ih y]
      tauto

theorem insertSorted_pairwise (x : String) :
    ∀ l, List.Pairwise (fun a b => strLe a b = true) l →
      List.Pairwise (fun a b => strLe a b = true) (insertSorted x l) := by
  intro l
  induction l with
  | nil => intro _; simp [insertSorted]
  | cons z zs ih =>
    intro h
    obtain ⟨hz, hzs⟩ := List.pairwise_cons.mp h
    unfold insertSorted
    by_cases hxz : strLe x z
    · rw [if_pos hxz]
      apply List.pairwise_cons.mpr
      refine ⟨?_, h⟩
      intro y hy
      rcases List.mem_cons.mp hy with rfl | hy
      · exact hxz
      · exact strLe_trans x z y hxz (hz y hy)
    · rw [if_neg hxz]
      apply List.pairwise_cons.mpr
      refine ⟨?_, ih hzs⟩
      intro y hy
      rcases (mem_insertSorted x zs y).mp hy with heq | hy
      · rw [heq]
        exact (strLe_total x z).resolve_left hxz
      · exact hz y hy

theorem insertSorted_nodup (x : String) :
    ∀ l, l.Nodup → x ∉ l → (insertSorted x l).Nodup := by
  intro l
  induction l with
  | nil => intro _ _; simp [insertSorted]
  | cons z zs ih =>
    intro hnd hx
    obtain ⟨hz, hzs⟩ := List.nodup_cons.mp hnd
    unfold insertSorted
    by_cases hxz : strLe x z
    · rw [if_pos hxz]
      apply List.nodup_cons.mpr
      exact ⟨hx, hnd⟩
    · rw [if_neg hxz]
      apply List.nodup_cons.mpr
      constructor
      · intro hmem
        rcases (mem_insertSorted x zs z).mp hmem with h | h
        · exact hx (by rw [h]; exact List.mem_cons_self _ _)
        · exact hz h
      · exact ih hzs (fun h => hx (List.mem_cons_of_mem _ h))

theorem sortStrings_pairwise (l : List String) :
    List.Pairwise (fun a b => strLe a b = true) (sortStrings l) := by
  induction l with
  | nil => simp [sortStrings]
  | cons x xs ih => exact insertSorted_pairwise x _ ih

theorem mem_sortStrings (l : List String) (y : String) : y ∈ sortStrings l ↔ y ∈ l := by
  induction l with
  | nil => simp [sortStrings]
  | cons x xs ih =>
    show y ∈ insertSorted x (sortStrings xs) ↔ _
    rw [mem_insertSorted x _ y]
    simp [List.mem_cons, ih]

theorem sortStrings_nodup (l : List String) (h : l.Nodup) : (sortStrings l).Nodup := by
  induction l with
  | nil => simp [sortStrings]
  | cons x xs ih =>
    obtain ⟨hx, hxs⟩ := List.nodup_cons.mp h
    exact insertSorted_nodup x _ (ih hxs) (fun hm => hx ((mem_sortStrings xs x).mp hm))

theorem mem_setInsert (l : List String) (x y : String) :
    y ∈ setInsert l x ↔ y ∈ l ∨ y = x := by
  unfold setInsert
  by_cases h : x ∈ l
  · rw [if_pos h]
    constructor
    · exact Or.inl
    · rintro (hy | rfl)
      · exact hy
      · exact h
  · rw [if_neg h]
    simp

theorem setInsert_nodup (l : List String) (x : String) (h : l.Nodup) :
    (setInsert l x).Nodup := by
  unfold setInsert
  by_cases hx : x ∈ l
  · rw [if_pos hx]; exact h
  · rw [if_neg hx]
    rw [List.nodup_append]
    exact ⟨h, List.nodup_singleton x, by simpa using hx⟩

theorem mem_foldl_setInsert (cs : List String) :
    ∀ acc y, y ∈ cs.foldl setInsert acc ↔ y ∈ acc ∨ y ∈ cs := by
  induction cs with
  | nil => intro acc y; simp
  | cons c cs' ih =>
    intro acc y
    rw [List.foldl_cons, ih (setInsert acc c) y, mem_setInsert acc c y]
    simp [List.mem_cons]
    tauto

theorem mem_dedupList (cs : List String) (y : String) : y ∈ dedupList cs ↔ y ∈ cs := by
  unfold dedupList
  rw [mem_foldl_setInsert cs [] y]
  simp

theorem dedupList_nodup (cs : List String) : (dedupList cs).Nodup := by
  unfold dedupList
  have h : ∀ acc : List String, acc.Nodup → (cs.foldl setInsert acc).Nodup := by
    induction cs with
    | nil => intro acc h; exact h
    | cons c cs' ih =>
      intro acc h
      rw [List.foldl_cons]
      exact ih (setInsert acc c) (setInsert_nodup acc c h)
  exact h [] (by simp)

/-! ### Claim C6 -/

/-- Claim C6: after every successful `Sync`, the managed block appended
to the access-allow file is the previous content truncated at the
marker, followed by the fixed daemon list granted to 127.0.0.1, one
space, and exactly the distinct client addresses last passed to
`SetClients`, sorted lexicographically and joined with single spaces
(followed by the closing blank line).  The sorted list is duplicate-free
and contains exactly the addresses passed. -/
theorem C6_allow_block (st : NfsState) (env : SyncEnv) (w : World) (cs : List String) :
    (∀ st' w', Sync (SetClients st cs) env w = (st', w', none) →
      w'.allowFile = some (stripAtMarkerStr (w.allowFile.getD "") hostAllowMarker ++
        hostAllowDefaults ++ " " ++
        joinWithStr " " (sortStrings (dedupList cs)) ++ "\n\n")) ∧
    SortedStrs (sortStrings (dedupList cs)) ∧
    (sortStrings (dedupList cs)).Nodup ∧
    (∀ x, x ∈ sortStrings (dedupList cs) ↔ x ∈ cs) := by
  refine ⟨?_, sortStrings_pairwise _, sortStrings_nodup _ (dedupList_nodup cs), ?_⟩
  · intro st' w' h
    obtain ⟨w1, w2, hd, ha, hw, _, _⟩ := Sync_success _ env w st' w' h
    have hwa : w'.allowFile = w2.allowFile := by
      have h2 := writeExports_allowFile (SetClients st cs) env w2
      rw [hw] at h2
      exact h2
    have haspec := (hostsAllow_spec (SetClients st cs) env w1 (by rw [ha])).1
    rw [ha] at haspec
    simp only [] at haspec
    have hda := (hostsDeny_frame env w).1
    rw [hd] at hda
    simp only [] at hda
    rw [hwa, haspec, hda]
    rfl
  · intro x
    rw [mem_sortStrings, mem_dedupList]

/-- Claim C6 witness: the theorem applied to the fixture state with
clients passed as b, a, b: a successful `Sync` writes the managed block
with the sorted distinct list a b. -/
theorem C6_witness :
    ((Sync (SetClients stFix ["b", "a", "b"]) envFix wFix).2.1.allowFile =
      some (stripAtMarkerStr ((wFix.allowFile).getD "") hostAllowMarker ++
        hostAllowDefaults ++ " " ++
        joinWithStr " " (sortStrings (dedupList ["b", "a", "b"])) ++ "\n\n")) ∧
    SortedStrs (sortStrings (dedupList ["b", "a", "b"])) ∧
    (sortStrings (dedupList ["b", "a", "b"])).Nodup ∧
    (("a" ∈ sortStrings (dedupList ["b", "a", "b"])) ↔ "a" ∈ ["b", "a", "b"]) := by
  have h := C6_allow_block stFix envFix wFix ["b", "a", "b"]
  have hnone : (Sync (SetClients stFix ["b", "a", "b"]) envFix wFix).2.2 = none := by decide
  have hs : Sync (SetClients stFix ["b", "a", "b"]) envFix wFix =
      ((Sync (SetClients stFix ["b", "a", "b"]) envFix wFix).1,
       (Sync (SetClients stFix ["b", "a", "b"]) envFix wFix).2.1, none) := by
    have heta : Sync (SetClients stFix ["b", "a", "b"]) envFix wFix =
        ((Sync (SetClients stFix ["b", "a", "b"]) envFix wFix).1,
         (Sync (SetClients stFix ["b", "a", "b"]) envFix wFix).2.1,
         (Sync (SetClients stFix ["b", "a", "b"]) envFix wFix).2.2) := rfl
    rw [hnone] at heta
    exact heta
  exact ⟨h.1 _ _ hs, h.2.1, h.2.2.1, h.2.2.2 "a"⟩

/-! ### Claim C3 -/

theorem exportsLoop_nil (env : SyncEnv) (edir network : String)
    (exports : List String) (acc : String) :
    exportsLoop env edir network [] exports acc = .ok (exports, acc) := rfl

theorem exportsLoop_cons (env : SyncEnv) (edir network v : String) (rest : List String)
    (exports : List String) (acc : String) :
    exportsLoop env edir network (v :: rest) exports acc =
      match env.bindMountErr (goClean v) (goJoin edir (goSplitPair (goClean v)).2) with
      | some e => .error e
      | none => exportsLoop env edir network rest
          (setInsert exports (goSplitPair (goClean v)).2)
          (acc ++ exportLine (goJoin edir (goSplitPair (goClean v)).2) network) := rfl

theorem exportsLoop_mem (env : SyncEnv) (edir network : String) :
    ∀ (vols exports0 : List String) (acc : String) (exports : List String) (gen : String),
      exportsLoop env edir network vols exports0 acc = .ok (exports, gen) →
      ∀ x, x ∈ exports ↔ x ∈ exports0 ∨ ∃ v ∈ vols, baseNameOf v = x := by
  intro vols
  induction vols with
  | nil =>
    intro exports0 acc exports gen h x
    rw [exportsLoop_nil] at h
    simp only [Except.ok.injEq, Prod.mk.injEq] at h
    rw [← h.1]
    simp
  | cons v rest ih =>
    intro exports0 acc exports gen h x
    rw [exportsLoop_cons] at h
    rcases hb : env.bindMountErr (goClean v) (goJoin edir (goSplitPair (goClean v)).2)
      with _ | e
    · rw [hb] at h
      have hmem := ih _ _ exports gen h x
      rw [hmem, mem_setInsert]
      show (x ∈ exports0 ∨ x = (goSplitPair (goClean v)).2) ∨ _ ↔ _
      constructor
      · rintro ((hx | hx) | ⟨u, hu, hux⟩)
        · exact Or.inl hx
        · exact Or.inr ⟨v, List.mem_cons_self _ _, hx.symm⟩
        · exact Or.inr ⟨u, List.mem_cons_of_mem _ hu, hux⟩
      · rintro (hx | ⟨u, hu, hux⟩)
        · exact Or.inl (Or.inl hx)
        · rcases List.mem_cons.mp hu with heq | hu'
          · exact Or.inl (Or.inr (by rw [← hux, heq]; rfl))
          · exact Or.inr ⟨u, hu', hux⟩
    · rw [hb] at h
      exact absurd h (by simp)

theorem writeExports_eq (st : NfsState) (env : SyncEnv) (w : World) :
    writeExports st env w =
      (if ¬ env.mkdirExportsDirOk then (st, w, some "mkdir exportsDir")
       else if ¬ env.mkdirEdirOk then (st, w, some "mkdir edir")
       else
         match exportsLoop env (goJoin env.exportsDir st.exportedName)
            (if st.network = "0.0.0.0/0" then "*" else st.network) st.volumes [] "" with
         | .error e => (st, w, some e)
         | .ok (exports, servicedExports) =>
           if env.writeExportsOk then
             ({ st with exported := exports },
              { w with exportsFile := some (String.mk (spliceManaged
                 (filterContent [env.exportsDir, goJoin env.exportsDir st.exportedName]
                   (w.exportsFile.getD "")) servicedExports.data)) }, none)
           else ({ st with exported := exports }, w, some "write exports")) := rfl

/-- Claim C3 (amended): after every successful reconciliation the
exported set equals exactly the base names of the desired volume paths;
if the exports-table step fails at directory creation or at a bind mount
(inside the loop), the exported set keeps its previous value; but once
the bind-mount loop has completed, the exported set is already updated
even when the subsequent read/write of the exports file fails (see the
counterexample), so "unchanged on error" does not hold for those late
failures. -/
theorem C3_sync_exported (st : NfsState) (env : SyncEnv) (w : World) :
    (∀ st' w', Sync st env w = (st', w', none) →
      ∀ x, x ∈ st'.exported ↔ ∃ v ∈ st.volumes, baseNameOf v = x) ∧
    ((¬ env.mkdirExportsDirOk ∨ ¬ env.mkdirEdirOk ∨
        ∃ e, exportsLoop env (goJoin env.exportsDir st.exportedName)
          (if st.network = "0.0.0.0/0" then "*" else st.network) st.volumes [] ""
          = .error e) →
      (writeExports st env w).1.exported = st.exported) ∧
    (∀ exports gen, exportsLoop env (goJoin env.exportsDir st.exportedName)
        (if st.network = "0.0.0.0/0" then "*" else st.network) st.volumes [] ""
        = .ok (exports, gen) →
      env.mkdirExportsDirOk → env.mkdirEdirOk →
      (writeExports st env w).1.exported = exports) := by
  refine ⟨?_, ?_, ?_⟩
  · intro st' w' h x
    obtain ⟨w1, w2, hd, ha, hw, _, _⟩ := Sync_success st env w st' w' h
    rw [writeExports_eq] at hw
    by_cases h1 : env.mkdirExportsDirOk
    · by_cases h2 : env.mkdirEdirOk
      · rcases hl : exportsLoop env (goJoin env.exportsDir st.exportedName)
          (if st.network = "0.0.0.0/0" then "*" else st.network) st.volumes [] ""
          with e | p
        · rw [hl] at hw
          simp [h1, h2] at hw
        · rcases p with ⟨exports, gen⟩
          rw [hl] at hw
          by_cases h3 : env.writeExportsOk
          · simp [h1, h2, h3] at hw
            have hst : st'.exported = exports := by
              rw [← hw.1]
            rw [hst]
            have := exportsLoop_mem env _ _ st.volumes [] "" exports gen hl x
            rw [this]
            simp
          · simp [h1, h2, h3] at hw
      · simp [h1, h2] at hw
    · simp [h1] at hw
  · intro hfail
    by_cases h1 : env.mkdirExportsDirOk
    · by_cases h2 : env.mkdirEdirOk
      · rcases hfail with hf | hf | ⟨e, hf⟩
        · exact absurd h1 hf
        · exact absurd h2 hf
        · rw [writeExports_eq]
          simp [h1, h2, hf]
      · rw [writeExports_eq]
        simp [h1, h2]
    · rw [writeExports_eq]
      simp [h1]
  · intro exports gen hl h1 h2
    rw [writeExports_eq]
    by_cases h3 : env.writeExportsOk
    · simp [h1, h2, hl, h3]
    · simp [h1, h2, hl, h3]

/-- Claim C3 counterexample: all bind mounts succeed but the final write
of the exports file fails; `writeExports` returns an error, yet the
exported set has already been replaced (old value `old`, new value
`tenant1`), refuting "the exported set retains its previous value
(unchanged on error)". -/
theorem C3_counterexample :
    ((writeExports { stFix with exported := ["old"] }
        { envFix with writeExportsOk := false } wFix).2.2).isSome = true ∧
    (writeExports { stFix with exported := ["old"] }
        { envFix with writeExportsOk := false } wFix).1.exported = ["tenant1"] ∧
    ({ stFix with exported := ["old"] } : NfsState).exported = ["old"] := by
  decide

/-- Claim C3 witness: the amended theorem applied to the fixture: a
successful `Sync` makes `tenant1` exported exactly because a desired
volume has that base name; a failed directory creation leaves the
exported set unchanged; a completed loop updates it even when the file
write fails. -/
theorem C3_witness :
    ("tenant1" ∈ (Sync stFix envFix wFix).1.exported ↔
      ∃ v ∈ stFix.volumes, baseNameOf v = "tenant1") ∧
    (writeExports { stFix with exported := ["old"] }
        { envFix with mkdirEdirOk := false } wFix).1.exported = ["old"] ∧
    (writeExports { stFix with exported := ["old"] }
        { envFix with writeExportsOk := false } wFix).1.exported = ["tenant1"] := by
  refine ⟨?_, ?_, ?_⟩
  · have h := C3_sync_exported stFix envFix wFix
    have hnone : (Sync stFix envFix wFix).2.2 = none := by decide
    have hs : Sync stFix envFix wFix =
        ((Sync stFix envFix wFix).1, (Sync stFix envFix wFix).2.1, none) := by
      have heta : Sync stFix envFix wFix =
          ((Sync stFix envFix wFix).1, (Sync stFix envFix wFix).2.1,
           (Sync stFix envFix wFix).2.2) := rfl
      rw [hnone] at heta
      exact heta
    exact h.1 _ _ hs "tenant1"
  · exact (C3_sync_exported { stFix with exported := ["old"] }
      { envFix with mkdirEdirOk := false } wFix).2.1 (Or.inr (Or.inl (by decide)))
  · exact (C3_sync_exported { stFix with exported := ["old"] }
      { envFix with writeExportsOk := false } wFix).2.2 ["tenant1"]
      "/exports/shares/tenant1\t10.0.0.0/24(rw,no_root_squash,insecure,no_subtree_check,async)\n"
      (by decide) (by decide) (by decide)

/-! ### Claim C7 -/

theorem strConcat_cons (s : String) (l : List String) :
    strConcat (s :: l) = s ++ strConcat l := rfl

theorem string_append_empty (s : String) : s ++ "" = s := by
  obtain ⟨d⟩ := s
  show String.mk (d ++ []) = String.mk d
  rw [List.append_nil]

theorem string_append_assoc (a b c : String) : a ++ b ++ c = a ++ (b ++ c) := by
  obtain ⟨da⟩ := a
  obtain ⟨db⟩ := b
  obtain ⟨dc⟩ := c
  show String.mk (da ++ db ++ dc) = String.mk (da ++ (db ++ dc))
  rw [List.append_assoc]

theorem exportsLoop_gen (env : SyncEnv) (edir network : String) :
    ∀ (vols exports0 : List String) (acc : String) (exports : List String) (gen : String),
      exportsLoop env edir network vols exports0 acc = .ok (exports, gen) →
      gen = acc ++ strConcat (vols.map (fun v =>
        exportLine (goJoin edir (baseNameOf v)) network)) := by
  intro vols
  induction vols with
  | nil =>
    intro exports0 acc exports gen h
    rw [exportsLoop_nil] at h
    simp only [Except.ok.injEq, Prod.mk.injEq] at h
    rw [← h.2]
    show acc = acc ++ strConcat []
    rw [show strConcat [] = "" from rfl, string_append_empty]
  | cons v rest ih =>
    intro exports0 acc exports gen h
    rw [exportsLoop_cons] at h
    rcases hb : env.bindMountErr (goClean v) (goJoin edir (goSplitPair (goClean v)).2)
      with _ | e
    · rw [hb] at h
      have hgen := ih _ _ exports gen h
      rw [hgen, List.map_cons, strConcat_cons, ← string_append_assoc]
      rfl
    · rw [hb] at h
      exact absurd h (by simp)

theorem spliceManaged_shape (filtered g : List Char) :
    ∃ pre post, spliceManaged filtered g =
      pre ++ etcExportsStartMarker.data ++ g ++ etcExportsEndMarker.data ++ post := by
  simp only [spliceManaged]
  split
  · exact ⟨filtered, [], by simp⟩
  · rename_i i heq
    exact ⟨filtered.take i, _, rfl⟩

/-- Claim C7: on every successful run of the exports-table step, the
written exports file consists of a preamble, the begin sentinel, one
line per desired volume of the form
bind-target TAB network(rw,no_root_squash,insecure,no_subtree_check,async)
— where the bind target is exportRoot/exportedName/baseName and a
network of 0.0.0.0/0 is rendered as the all-hosts wildcard (the
`specExportLine` rendering, written from the spec's words) — the end
sentinel, and a postamble; and every trimmed non-comment line whose
first field equals one of the two serviced-managed mount directories is
re-emitted with the removal comment prefix rather than deleted. -/
theorem C7_exports_lines (st : NfsState) (env : SyncEnv) (w : World) :
    (∀ st' w', writeExports st env w = (st', w', none) →
      ∃ pre post, (w'.exportsFile.getD "").data =
        pre ++ etcExportsStartMarker.data ++
        (strConcat (st.volumes.map (fun v =>
          specExportLine env.exportsDir st.exportedName st.network v))).data ++
        etcExportsEndMarker.data ++ post) ∧
    (∀ L : List Char, goTrimSpace L = L → ¬ (List.isPrefixOf ['#'] L) →
      (∃ f rest, goFields L = f :: rest ∧
        (String.mk f = env.exportsDir ∨ String.mk f = goJoin env.exportsDir st.exportedName)) →
      filterLine [env.exportsDir, goJoin env.exportsDir st.exportedName] L =
        etcExportsRemoveComment.data ++ L ++ ['\n']) := by
  constructor
  · intro st' w' h
    rw [writeExports_eq] at h
    by_cases h1 : env.mkdirExportsDirOk
    · by_cases h2 : env.mkdirEdirOk
      · rcases hl : exportsLoop env (goJoin env.exportsDir st.exportedName)
          (if st.network = "0.0.0.0/0" then "*" else st.network) st.volumes [] ""
          with e | p
        · rw [hl] at h
          simp [h1, h2] at h
        · rcases p with ⟨exports, gen⟩
          rw [hl] at h
          by_cases h3 : env.writeExportsOk
          · simp [h1, h2, h3] at h
            have hw' : w'.exportsFile = some (String.mk (spliceManaged
                (filterContent [env.exportsDir, goJoin env.exportsDir st.exportedName]
                  (w.exportsFile.getD "")) gen.data)) := by
              rw [← h.2]
            have hgen : gen = strConcat (st.volumes.map (fun v =>
                specExportLine env.exportsDir st.exportedName st.network v)) := by
              have hg := exportsLoop_gen env _ _ st.volumes [] "" exports gen hl
              rw [hg]
              rfl
            obtain ⟨pre, post, hshape⟩ := spliceManaged_shape
              (filterContent [env.exportsDir, goJoin env.exportsDir st.exportedName]
                (w.exportsFile.getD "")) gen.data
            refine ⟨pre, post, ?_⟩
            rw [hw']
            show (String.mk (spliceManaged _ gen.data)).data = _
            rw [data_mk, hshape, hgen]
          · simp [h1, h2, h3] at h
      · simp [h1, h2] at h
    · simp [h1] at h
  · intro L hT hH hex
    obtain ⟨f, rest, hf, hmem⟩ := hex
    unfold filterLine
    rw [hT, if_neg hH, hf]
    have hin : String.mk f ∈ [env.exportsDir, goJoin env.exportsDir st.exportedName] := by
      rcases hmem with hm | hm
      · rw [hm]; exact List.mem_cons_self _ _
      · rw [hm]; exact List.mem_cons_of_mem _ (List.mem_cons_self _ _)
    show (if String.mk f ∈ [env.exportsDir, goJoin env.exportsDir st.exportedName] then
        etcExportsRemoveComment.data ++ L ++ ['\n'] else L ++ ['\n']) = _
    rw [if_pos hin]

/-- Claim C7 witness: the theorem applied to the fixture run (one
desired volume, empty previous file) and to the conflicting line
`/exports x`. -/
theorem C7_witness :
    (∃ pre post, (((writeExports stFix envFix wFix).2.1.exportsFile.getD "")).data =
      pre ++ etcExportsStartMarker.data ++
      (strConcat (stFix.volumes.map (fun v =>
        specExportLine envFix.exportsDir stFix.exportedName stFix.network v))).data ++
      etcExportsEndMarker.data ++ post) ∧
    filterLine [envFix.exportsDir, goJoin envFix.exportsDir stFix.exportedName]
      ("/exports x").data =
      etcExportsRemoveComment.data ++ ("/exports x").data ++ ['\n'] := by
  have h := C7_exports_lines stFix envFix wFix
  constructor
  · have hnone : (writeExports stFix envFix wFix).2.2 = none := by decide
    have hs : writeExports stFix envFix wFix =
        ((writeExports stFix envFix wFix).1, (writeExports stFix envFix wFix).2.1, none) := by
      have heta : writeExports stFix envFix wFix =
          ((writeExports stFix envFix wFix).1, (writeExports stFix envFix wFix).2.1,
           (writeExports stFix envFix wFix).2.2) := rfl
      rw [hnone] at heta
      exact heta
    exact h.1 _ _ hs
  · exact h.2 ("/exports x").data (by decide) (by decide)
      ⟨("/exports").data, [("x").data], by decide, Or.inl (by decide)⟩

/-! ### Claim C4 -/

theorem splitOnChar_concat_sep (sep : Char) :
    ∀ x : List Char, splitOnChar sep (x ++ [sep]) = splitOnChar sep x ++ [[]] := by
  intro x
  induction x with
  | nil =>
    rw [List.nil_append]
    rw [show splitOnChar sep [sep] = [] :: splitOnChar sep [] from splitOnChar_sep_cons sep []]
    rfl
  | cons c cs ih =>
    rcases hs : splitOnChar sep cs with _ | ⟨s0, rest0⟩
    · exact absurd hs (splitOnChar_ne_nil sep cs)
    · have hcs : splitOnChar sep (cs ++ [sep]) = s0 :: (rest0 ++ [[]]) := by
        rw [ih, hs]
        rfl
      rw [List.cons_append, splitOnChar_cons_eq sep c (cs ++ [sep]) s0 (rest0 ++ [[]]) hcs,
          splitOnChar_cons_eq sep c cs s0 rest0 hs]
      by_cases hc : c = sep
      · rw [if_pos hc, if_pos hc]
        rfl
      · rw [if_neg hc, if_neg hc]
        rfl

theorem flatten_map_append_sep (sep : Char) :
    ∀ X : List (List Char), X ≠ [] →
      (X.map (fun l => l ++ [sep])).flatten = joinWithChar sep X ++ [sep] := by
  intro X
  induction X with
  | nil => intro h; exact absurd rfl h
  | cons a rest ih =>
    intro _
    rcases rest with _ | ⟨b, rest'⟩
    · simp [joinWithChar]
    · have h2 := ih (by simp)
      rw [List.map_cons, List.flatten_cons, h2]
      show _ = (a ++ sep :: joinWithChar sep (b :: rest')) ++ [sep]
      simp [List.append_assoc]

theorem mem_of_getLast_some {α : Type} (l : List α) (a : α)
    (h : l.getLast? = some a) : a ∈ l := by
  have hne : l ≠ [] := by
    intro he
    rw [he] at h
    simp at h
  rw [List.getLast?_eq_getLast l hne] at h
  rw [← Option.some.inj h]
  exact List.getLast_mem hne

theorem dropCR_id (l : List Char) (h : '\r' ∉ l) : dropCR l = l := by
  unfold dropCR
  rcases hl : l.getLast? with _ | c
  · simp
  · by_cases hc : c = '\r'
    · subst hc
      exact absurd (mem_of_getLast_some l '\r' hl) h
    · rw [if_neg (by simp [hc])]

theorem scanLines_zeta (s : List Char) :
    scanLines s =
      (if (splitOnChar '\n' s).getLast? = some [] then
        (splitOnChar '\n' s).dropLast else splitOnChar '\n' s).map dropCR := rfl

theorem map_congr_mem {α β : Type} (l : List α) (f g : α → β)
    (h : ∀ x ∈ l, f x = g x) : l.map f = l.map g := by
  induction l with
  | nil => rfl
  | cons x xs ih =>
    rw [List.map_cons, List.map_cons, h x (List.mem_cons_self _ _),
        ih (fun y hy => h y (List.mem_cons_of_mem _ hy))]

theorem joinLines (s : List Char) (hcr : '\r' ∉ s)
    (hnl : s = [] ∨ s.getLast? = some '\n') :
    ((scanLines s).map (fun l => l ++ ['\n'])).flatten = s := by
  rcases hnl with hemp | hlast
  · subst hemp
    rfl
  · have hne : s ≠ [] := by
      intro h
      rw [h] at hlast
      simp at hlast
    have hsplit : s = s.dropLast ++ [s.getLast hne] := (List.dropLast_append_getLast hne).symm
    have hlastc : s.getLast hne = '\n' := by
      rw [List.getLast?_eq_getLast s hne] at hlast
      exact Option.some.inj hlast
    rw [hlastc] at hsplit
    rw [hsplit, scanLines_zeta, splitOnChar_concat_sep '\n' s.dropLast]
    rw [if_pos (by rw [List.getLast?_concat])]
    rw [List.dropLast_concat]
    have hmapid : (splitOnChar '\n' s.dropLast).map dropCR = splitOnChar '\n' s.dropLast := by
      have := map_congr_mem (splitOnChar '\n' s.dropLast) dropCR id ?_
      · rw [this, List.map_id]
      · intro x hx
        apply dropCR_id
        intro hr
        apply hcr
        rw [hsplit]
        exact List.mem_append_left _ (mem_of_mem_splitOnChar '\n' s.dropLast x hx '\r' hr)
    rw [hmapid]
    rw [flatten_map_append_sep '\n' _ (splitOnChar_ne_nil '\n' s.dropLast)]
    rw [joinWithChar_splitOnChar]

theorem filterLine_keep (mp : List String) (L : List Char)
    (hcond : ∀ f ∈ (goFields (goTrimSpace L)).take 1, String.mk f ∉ mp) :
    filterLine mp L = goTrimSpace L ++ ['\n'] := by
  unfold filterLine
  by_cases hH : List.isPrefixOf ['#'] (goTrimSpace L)
  · rw [if_pos hH]
  · rw [if_neg hH]
    rcases hf : goFields (goTrimSpace L) with _ | ⟨f, rest⟩
    · rfl
    · show (if String.mk f ∈ mp then etcExportsRemoveComment.data ++ goTrimSpace L ++ ['\n']
        else goTrimSpace L ++ ['\n']) = _
      rw [if_neg (hcond f (by rw [hf]; simp))]

/-- Claim C4 (amended): the managed-region rewrite preserves the content
outside the sentinel markers byte-for-byte only up to per-line
normalization: each line is re-emitted trimmed of surrounding whitespace
with a final newline (the counterexample shows a line with leading
whitespace is not preserved byte-for-byte).  Hence for previous content
whose lines are already trimmed, carry no carriage returns, end with a
newline, contain no begin sentinel, and have no conflicting first field,
the rewritten file is exactly the previous content followed by the begin
sentinel, the regenerated section, and the end sentinel; and any line
whose first field does not conflict is kept (trimmed), never deleted. -/
theorem C4_exports_frame (mp : List String) (orig : String) (g : List Char) :
    ((∀ L ∈ scanLines orig.data, goTrimSpace L = L) →
     (∀ L ∈ scanLines orig.data, ∀ f ∈ (goFields (goTrimSpace L)).take 1, String.mk f ∉ mp) →
     '\r' ∉ orig.data →
     (orig.data = [] ∨ orig.data.getLast? = some '\n') →
     containsStr orig etcExportsStartMarker = false →
     spliceManaged (filterContent mp orig) g =
       orig.data ++ etcExportsStartMarker.data ++ g ++ etcExportsEndMarker.data) ∧
    (∀ L : List Char, (∀ f ∈ (goFields (goTrimSpace L)).take 1, String.mk f ∉ mp) →
      filterLine mp L = goTrimSpace L ++ ['\n']) := by
  constructor
  · intro hT hC hcr hnl hcont
    have hfiltered : filterContent mp orig = orig.data := by
      unfold filterContent
      have hmap : (scanLines orig.data).map (filterLine mp) =
          (scanLines orig.data).map (fun l => l ++ ['\n']) := by
        apply map_congr_mem
        intro L hL
        rw [filterLine_keep mp L (hC L hL), hT L hL]
      rw [hmap]
      exact joinLines orig.data hcr hnl
    have hnone : indexOfSub etcExportsStartMarker.data orig.data = none := by
      unfold containsStr at hcont
      rcases hi : indexOfSub etcExportsStartMarker.data orig.data with _ | i
      · rfl
      · rw [hi] at hcont
        simp at hcont
    rw [hfiltered]
    simp only [spliceManaged, hnone]
  · intro L hcond
    exact filterLine_keep mp L hcond

set_option maxRecDepth 20000 in
/-- Claim C4 counterexample: a previous exports file ` foo x\n` (note
the leading space) contains no managed region and no conflicting first
field, yet after a successful rewrite the new file no longer contains
the original bytes ` foo x` anywhere — the line was re-emitted trimmed —
refuting byte-for-byte preservation of content outside the markers. -/
theorem C4_counterexample :
    (writeExports { stFix with volumes := [] } envFix
      { wFix with exportsFile := some " foo x\n" }).2.2 = none ∧
    containsStr ((writeExports { stFix with volumes := [] } envFix
      { wFix with exportsFile := some " foo x\n" }).2.1.exportsFile.getD "") " foo x"
      = false ∧
    containsStr " foo x\n" " foo x" = true := by
  decide

set_option maxRecDepth 20000 in
/-- Claim C4 witness: the amended theorem applied to a trimmed,
marker-free previous content `keep me\n` (preserved byte-for-byte around
the spliced managed section) and to a line with surrounding whitespace
(re-emitted trimmed). -/
theorem C4_witness :
    spliceManaged (filterContent ["/exports", "/exports/shares"] "keep me\n")
      (("GEN\n").data) =
      ("keep me\n").data ++ etcExportsStartMarker.data ++ ("GEN\n").data ++
        etcExportsEndMarker.data ∧
    filterLine ["/exports", "/exports/shares"] ((" spaced line ").data) =
      goTrimSpace ((" spaced line ").data) ++ ['\n'] := by
  have h := C4_exports_frame ["/exports", "/exports/shares"] "keep me\n" (("GEN\n").data)
  exact ⟨h.1 (by decide) (by decide) (by decide) (by decide) (by decide),
    h.2 ((" spaced line ").data) (by decide)⟩
